import Mathlib

/-!
Verification of the Lisk SDK block-storage, processor, transport and bus
components against their natural-language specification.

The embedding models byte strings as `List Nat` (one element per byte),
the key/value database as a function from keys to optional values, and a
write batch as the list of put/del operations queued on it.  The binary
codec is external to the repository and assumed to be a deterministic
round-tripping encoder, so an encoded state diff is represented by the
diff itself via the `DBValue.diffVal` constructor.
-/

namespace LiskSpec

/-- Byte strings (ids, addresses, headers, encoded payloads). -/
abbrev Bytes := List Nat

/-- Database keys are byte strings. -/
abbrev Key := List Nat

/-- One `{key, value}` entry of a state diff, the `value` being the
pre-image of the key before the block was applied
(`updatedDiffSchema` in `schema.ts`). -/
structure DiffKV where
  key : Key
  value : Bytes
  deriving Repr, DecidableEq

/-- The state diff stored per saved block (`stateDiffSchema`):
keys created by the block, and pre-images of keys it updated/deleted. -/
structure StateDiff where
  created : List Key
  updated : List DiffKV
  deleted : List DiffKV
  deriving Repr, DecidableEq

/-- Value stored in the database: either raw bytes, or an encoded state
diff.  The codec (`codec.encode stateDiffSchema`) is an external
deterministic round-tripping encoder, so the encoded form is modelled by
the structured diff itself. -/
inductive DBValue where
  | bytes (b : Bytes)
  | diffVal (d : StateDiff)
  deriving Repr, DecidableEq

/-- The key/value database (`KVStore`): a total map from keys to
optional values; `none` is the `NotFoundError` case of `get`. -/
abbrev Kv := Key → Option DBValue

/-- One queued operation of a write batch. -/
inductive BatchOp where
  | put (k : Key) (v : DBValue)
  | del (k : Key)
  deriving Repr, DecidableEq

/-- The key an operation touches. -/
def BatchOp.key : BatchOp → Key
  | .put k _ => k
  | .del k => k

/-- Apply a single batch operation to the database. -/
def applyOp (db : Kv) : BatchOp → Kv
  | .put k v => fun x => if x = k then some v else db x
  | .del k => fun x => if x = k then none else db x

/-- `batch.write()`: atomically apply all queued operations in order. -/
def writeBatch (db : Kv) (ops : List BatchOp) : Kv :=
  ops.foldl applyOp db

/-- Lexicographic byte-string order (`Buffer.compare`); a strict prefix
sorts before its extensions. -/
def bufLt : List Nat → List Nat → Bool
  | [], [] => false
  | [], _ :: _ => true
  | _ :: _, [] => false
  | a :: as, b :: bs => if a < b then true else if b < a then false else bufLt as bs

/-- `db.clear({gte, lt})`: remove every key in the half-open
lexicographic range. -/
def clearRange (db : Kv) (gte lt : Key) : Kv :=
  fun k => if !bufLt k gte && bufLt k lt then none else db k

/-- `formatInt` of `@liskhq/lisk-db`: fixed-width 4-byte big-endian
encoding of a `u32`, used for height-indexed keys. -/
def formatInt (n : Nat) : List Nat :=
  [n / 2 ^ 24 % 256, n / 2 ^ 16 % 256, n / 2 ^ 8 % 256, n % 256]

/-! The `db_keys.ts` domain tags.  Their concrete byte values are
internal to the repository; only their pairwise distinctness matters. -/

def dbKeyBlocksID : Key := [3]
def dbKeyBlocksHeight : Key := [4]
def dbKeyTransactionsID : Key := [5]
def dbKeyTransactionsBlockID : Key := [6]
def dbKeyTempBlocksHeight : Key := [7]
def dbKeyDiffState : Key := [8]
def dbKeyFinalizedHeight : Key := [9]

/-- Tag of the account domain of the state store. -/
def tagAccounts : Nat := 10

/-- Tag of the chain-state domain of the state store. -/
def tagChainState : Nat := 11

/-- `concatDBKeys`: concatenation of key fragments. -/
def concatDBKeys (a b : Key) : Key := a ++ b

/-- A key belonging to the state store's domains (accounts or chain
state), disjoint from the block-storage key domains. -/
def isStateKey (k : Key) : Bool :=
  match k with
  | t :: _ => t == tagAccounts || t == tagChainState
  | [] => false

/-!
## State store (modelled from the spec)

Modelled from the spec: the `StateStore` class of
`lisk-chain/src/state_store` is not part of the provided sources (only
`storage.ts` consumes it).  Per the spec, a state store records per
transition, for every touched key, a snapshot of the underlying value and
the final overlay value; `finalize(batch)` flushes the accumulated
mutations into the batch and returns the diff, classifying a key as
created if no prior snapshot existed, updated if snapshot and final both
exist, and deleted if the snapshot existed and the final does not; the
recorded value for updated/deleted entries is the pre-image.

A transition is the association list of touched keys to their final
overlay values (`none` = deleted); its keys are pairwise distinct.
-/

/-- The accumulated mutations of one state transition: touched key to
final overlay value, `none` meaning the key was deleted. -/
abbrev StateTx := List (Key × Option Bytes)

/-- Snapshot of a key: the underlying raw-bytes value at the time the
state store was opened (state-domain keys only ever hold raw bytes). -/
def snapshotOf (db : Kv) (k : Key) : Option Bytes :=
  match db k with
  | some (.bytes b) => some b
  | _ => none

/-- Modelled from the spec: the diff returned by `StateStore.finalize`,
classifying each touched key against its snapshot. -/
def diffOfTx (db : Kv) (tx : StateTx) : StateDiff :=
  { created :=
      (tx.filter fun kv => (snapshotOf db kv.1).isNone && kv.2.isSome).map Prod.fst
    updated :=
      tx.filterMap fun kv =>
        match snapshotOf db kv.1, kv.2 with
        | some pre, some _ => some ⟨kv.1, pre⟩
        | _, _ => none
    deleted :=
      tx.filterMap fun kv =>
        match snapshotOf db kv.1, kv.2 with
        | some pre, none => some ⟨kv.1, pre⟩
        | _, _ => none }

/-- Modelled from the spec: the mutations `StateStore.finalize` flushes
into the write batch. -/
def flushOps (tx : StateTx) : List BatchOp :=
  tx.map fun kv =>
    match kv.2 with
    | some v => .put kv.1 (.bytes v)
    | none => .del kv.1

/-!
## Block storage (`data_access/storage.ts`)
-/

/-- `Storage._cleanUntil(height)`: best-effort clear of the stored diffs
at heights `[0, height)`. -/
def cleanUntil (db : Kv) (height : Nat) : Kv :=
  clearRange db (concatDBKeys dbKeyDiffState (formatInt 0))
    (concatDBKeys dbKeyDiffState (formatInt height))

/-- The queued operations of `Storage.saveBlock`'s batch, in source
order: header and height-index puts, transaction puts and the
transactions-of-block index, the optional temp-table removal, the
state store flush, the encoded diff, and the finalized height. -/
def saveBlockOps (db : Kv) (id : Bytes) (height finalizedHeight : Nat) (header : Bytes)
    (payload : List (Bytes × Bytes)) (tx : StateTx) (removeFromTemp : Bool) : List BatchOp :=
  let heightBuf := formatInt height
  [.put (concatDBKeys dbKeyBlocksID id) (.bytes header),
   .put (concatDBKeys dbKeyBlocksHeight heightBuf) (.bytes id)]
  ++ (if payload.length > 0 then
        (payload.map fun p => BatchOp.put (concatDBKeys dbKeyTransactionsID p.1) (.bytes p.2))
        ++ [.put (concatDBKeys dbKeyTransactionsBlockID id) (.bytes (payload.map Prod.fst).flatten)]
      else [])
  ++ (if removeFromTemp then [.del (concatDBKeys dbKeyTempBlocksHeight heightBuf)] else [])
  ++ flushOps tx
  ++ [.put (concatDBKeys dbKeyDiffState (formatInt height)) (.diffVal (diffOfTx db tx)),
      .put dbKeyFinalizedHeight (.bytes (formatInt finalizedHeight))]

/-- `Storage.saveBlock`: atomically commit the batch, then best-effort
clear diffs below the finalized height. -/
def saveBlock (db : Kv) (id : Bytes) (height finalizedHeight : Nat) (header : Bytes)
    (payload : List (Bytes × Bytes)) (tx : StateTx) (removeFromTemp : Bool) : Kv :=
  cleanUntil
    (writeBatch db (saveBlockOps db id height finalizedHeight header payload tx removeFromTemp))
    finalizedHeight

/-- The inverse operations `Storage.deleteBlock` queues from a stored
diff, in source order: delete every created key, then restore the
pre-image of every deleted and every updated key. -/
def inverseDiffOps (d : StateDiff) : List BatchOp :=
  (d.created.map fun k => BatchOp.del k)
  ++ (d.deleted.map fun e => BatchOp.put e.key (.bytes e.value))
  ++ (d.updated.map fun e => BatchOp.put e.key (.bytes e.value))

/-- The queued operations of `Storage.deleteBlock`'s batch, in source
order: removal of the block's keys, the optional temp-table copy, the
inverse of the stored diff, the flush of the (fresh, ignored) state
store, and the removal of the stored diff. -/
def deleteBlockOps (id : Bytes) (height : Nat) (txIDs : List Bytes) (fullBlock : Bytes)
    (d : StateDiff) (tx : StateTx) (saveToTemp : Bool) : List BatchOp :=
  let heightBuf := formatInt height
  [.del (concatDBKeys dbKeyBlocksID id), BatchOp.del (concatDBKeys dbKeyBlocksHeight heightBuf)]
  ++ (if txIDs.length > 0 then
        (txIDs.map fun t => BatchOp.del (concatDBKeys dbKeyTransactionsID t))
        ++ [.del (concatDBKeys dbKeyTransactionsBlockID id)]
      else [])
  ++ (if saveToTemp then [.put (concatDBKeys dbKeyTempBlocksHeight heightBuf) (.bytes fullBlock)] else [])
  ++ inverseDiffOps d
  ++ flushOps tx
  ++ [.del (concatDBKeys dbKeyDiffState heightBuf)]

/-- `Storage.deleteBlock`: load the stored diff of the height, queue
the batch operations, commit atomically, and return the diff.  `none`
when no diff is stored at the height (`NotFoundError` of
`this._db.get(diffKey)`). -/
def deleteBlock (db : Kv) (id : Bytes) (height : Nat) (txIDs : List Bytes)
    (fullBlock : Bytes) (tx : StateTx) (saveToTemp : Bool) : Option (Kv × StateDiff) :=
  match db (concatDBKeys dbKeyDiffState (formatInt height)) with
  | some (.diffVal d) =>
    some (writeBatch db (deleteBlockOps id height txIDs fullBlock d tx saveToTemp), d)
  | _ => none

/-!
## Block storage read paths (`data_access/storage.ts`)

`getBlockByHeight` / `getBlockByID`, modelled over `Kv` where a failed
`get` (NotFoundError) is `none` and failure propagates as `none` of the
whole call.
-/

/-- Interpret a fetched value as raw bytes (every key outside
`DIFF_STATE` holds raw bytes). -/
def asBytesOpt : Option DBValue → Option Bytes
  | some (.bytes b) => some b
  | _ => none

/-- `Storage.getBlockHeaderByID`. -/
def getBlockHeaderByIDM (db : Kv) (id : Bytes) : Option Bytes :=
  asBytesOpt (db (concatDBKeys dbKeyBlocksID id))

/-- Split a concatenation of transaction ids into 32-byte chunks
(the slicing loop of `Storage._getTransactions`). -/
def chunks32 : Bytes → List Bytes
  | [] => []
  | a :: as => (a :: as).take 32 :: chunks32 ((a :: as).drop 32)
termination_by l => l.length
decreasing_by
  simp only [List.length_drop, List.length_cons]
  omega

/-- `Storage._getTransactions`: read the id concatenation under
`TX_BLOCK_ID` (absence gives an empty payload), then fetch every
transaction; a missing transaction entry fails the call. -/
def getTransactionsM (db : Kv) (blockID : Bytes) : Option (List Bytes) :=
  let txIDs :=
    match db (concatDBKeys dbKeyTransactionsBlockID blockID) with
    | some (.bytes ids) => chunks32 ids
    | _ => []
  go txIDs
where
  /-- Fetch each transaction of the block in order; a missing entry
  fails the whole call. -/
  go : List Bytes → Option (List Bytes)
  | [] => some []
  | t :: rest =>
    match asBytesOpt (db (concatDBKeys dbKeyTransactionsID t)) with
    | some v => (go rest).map fun l => v :: l
    | none => none

/-- `Storage.getBlockByID`: stored header and payload of the block. -/
def getBlockByIDM (db : Kv) (id : Bytes) : Option (Bytes × List Bytes) :=
  match getBlockHeaderByIDM db id with
  | some header =>
    match getTransactionsM db id with
    | some txs => some (header, txs)
    | none => none
  | none => none

/-- `Storage.getBlockByHeight`: resolve the height index to the block
id, fetch the header, recompute the block id as the hash of the header,
and fetch the payload under it.  `hashFn` is the external cryptographic
hash. -/
def getBlockByHeightM (hashFn : Bytes → Bytes) (db : Kv) (height : Nat) :
    Option (Bytes × List Bytes) :=
  match asBytesOpt (db (concatDBKeys dbKeyBlocksHeight (formatInt height))) with
  | some id =>
    match getBlockHeaderByIDM db id with
    | some header =>
      match getTransactionsM db (hashFn header) with
      | some txs => some (header, txs)
      | none => none
    | none => none
  | none => none

/-!
## Batch getters over a fallible store (`data_access/storage.ts`)

For the claims about error handling the store is modelled with explicit
outcomes, so that a `NotFoundError` and any other database error can be
told apart.  Values on these read paths are raw byte strings.
-/

/-- Outcome of a raw `db.get`. -/
inductive DbResultE where
  | found (v : Bytes)
  | missing
  | ioFailure
  deriving Repr, DecidableEq

/-- A key/value database whose reads can fail. -/
abbrev KvE := Key → DbResultE

/-- Database errors: `NotFoundError` or any other error. -/
inductive DbError where
  | notFound
  | ioError
  deriving Repr, DecidableEq

/-- `db.get` over the fallible store. -/
def kvGetE (db : KvE) (k : Key) : Except DbError Bytes :=
  match db k with
  | .found v => .ok v
  | .missing => .error .notFound
  | .ioFailure => .error .ioError

/-- `Storage.getBlockHeadersByIDs`: fetch each header, silently
skipping entries whose `get` raised `NotFoundError`, rethrowing any
other error. -/
def getBlockHeadersByIDsE (db : KvE) : List Bytes → Except DbError (List Bytes)
  | [] => .ok []
  | id :: rest =>
    match kvGetE db (concatDBKeys dbKeyBlocksID id) with
    | .ok v => (getBlockHeadersByIDsE db rest).map fun l => v :: l
    | .error .notFound => getBlockHeadersByIDsE db rest
    | .error .ioError => .error .ioError

/-- `Storage.getBlockHeaderByHeight`: resolve the height index, then
fetch the header by the indexed id. -/
def getBlockHeaderByHeightE (db : KvE) (height : Nat) : Except DbError Bytes :=
  match kvGetE db (concatDBKeys dbKeyBlocksHeight (formatInt height)) with
  | .ok id => kvGetE db (concatDBKeys dbKeyBlocksID id)
  | .error e => .error e

/-- `Storage.getBlockHeadersWithHeights`: fetch each header by height,
skipping `NotFoundError` of either lookup, rethrowing any other
error. -/
def getBlockHeadersWithHeightsE (db : KvE) : List Nat → Except DbError (List Bytes)
  | [] => .ok []
  | h :: rest =>
    match getBlockHeaderByHeightE db h with
    | .ok v => (getBlockHeadersWithHeightsE db rest).map fun l => v :: l
    | .error .notFound => getBlockHeadersWithHeightsE db rest
    | .error .ioError => .error .ioError

/-- `Storage._getTransactions` over the fallible store: only a
`NotFoundError` of the `TX_BLOCK_ID` lookup is caught (empty payload);
any other error there is rethrown. -/
def getTransactionsE (db : KvE) (blockID : Bytes) : Except DbError (List Bytes) :=
  match kvGetE db (concatDBKeys dbKeyTransactionsBlockID blockID) with
  | .ok ids => go (chunks32 ids)
  | .error .notFound => go []
  | .error .ioError => .error .ioError
where
  /-- Fetch each transaction; every error, `NotFoundError` included,
  propagates. -/
  go : List Bytes → Except DbError (List Bytes)
  | [] => .ok []
  | t :: rest =>
    match kvGetE db (concatDBKeys dbKeyTransactionsID t) with
    | .ok v => (go rest).map fun l => v :: l
    | .error e => .error e

/-- `Storage.getBlockByID` over the fallible store. -/
def getBlockByIDE (db : KvE) (id : Bytes) : Except DbError (Bytes × List Bytes) :=
  match kvGetE db (concatDBKeys dbKeyBlocksID id) with
  | .ok header =>
    match getTransactionsE db id with
    | .ok txs => .ok (header, txs)
    | .error e => .error e
  | .error e => .error e

/-- `Storage.getBlocksByIDs`: fetch each block, skipping those whose
fetch raised `NotFoundError` (missing header or missing transaction
entry), rethrowing any other error. -/
def getBlocksByIDsE (db : KvE) : List Bytes → Except DbError (List (Bytes × List Bytes))
  | [] => .ok []
  | id :: rest =>
    match getBlockByIDE db id with
    | .ok b => (getBlocksByIDsE db rest).map fun l => b :: l
    | .error .notFound => getBlocksByIDsE db rest
    | .error .ioError => .error .ioError

/-- `Storage.getTransactionsByIDs`: fetch each transaction, skipping
`NotFoundError`, rethrowing any other error. -/
def getTransactionsByIDsE (db : KvE) : List Bytes → Except DbError (List Bytes)
  | [] => .ok []
  | id :: rest =>
    match kvGetE db (concatDBKeys dbKeyTransactionsID id) with
    | .ok v => (getTransactionsByIDsE db rest).map fun l => v :: l
    | .error .notFound => getTransactionsByIDsE db rest
    | .error .ioError => .error .ioError

/-!
## Processor (`processor.ts`)

Blocks are abstracted to the header fields the processor inspects; the
outcomes of the external validation and application collaborators
(`chain.validateBlockHeader`, transaction validation, the verify/apply
pipeline over a fresh state store) are oracles `validOk`, `verifyOk`,
`applyOk`.
-/

/-- The header fields of a block the processor's control flow reads. -/
structure PBlock where
  id : Nat
  height : Nat
  version : Nat
  deriving Repr, DecidableEq

/-- Events the processor publishes or emits while handling a block. -/
inductive PEvent where
  | chainFork (blockId : Nat)
  | broadcastBlock (blockId : Nat)
  | syncRequired (blockId : Nat)
  deriving Repr, DecidableEq

/-- `BLOCK_VERSION` of `processor.ts`. -/
def BLOCK_VERSION : Nat := 2

/-- `Processor._validate`: the version must be `BLOCK_VERSION` and the
header/transaction static validation (`validOk`) must pass; any failure
surfaces as an `ApplyPenaltyError`. -/
def validateBlock (validOk : PBlock → Bool) (b : PBlock) : Bool :=
  b.version == BLOCK_VERSION && validOk b

/-- `Processor._processValidated`: header verifications (`verifyOk`),
then — unless suppressed — the `BROADCAST_BLOCK` emission, then hook
and transaction application (`applyOk`).  Returns the new tip on
success (`none` = the pipeline threw; events already emitted stand). -/
def pvStep (verifyOk applyOk : PBlock → Bool) (b : PBlock) (skipBroadcast : Bool) :
    Option PBlock × List PEvent :=
  if verifyOk b then
    let evs := if skipBroadcast then [] else [PEvent.broadcastBlock b.id]
    if applyOk b then (some b, evs) else (none, evs)
  else (none, [])

/-- Fork status as computed by `bft.forkChoice`. -/
inductive ForkStatus where
  | identicalBlock
  | validBlock
  | doubleForging
  | tieBreak
  | differentChain
  | discard
  | unknown
  deriving Repr, DecidableEq

/-- Result of one `Processor.process` job: the chain tip afterwards
(`none` = tip deleted and not restored), the events emitted in order,
and whether the job ended in an error. -/
structure StepResult where
  tip : Option PBlock
  events : List PEvent
  errored : Bool
  deriving Repr, DecidableEq

/-- The body of the job queued by `Processor.process`: dispatch on the
fork status of the incoming block `b` against the current tip. -/
def processStep (validOk verifyOk applyOk : PBlock → Bool) (finalizedHeight : Nat)
    (forkStatus : ForkStatus) (tip : PBlock) (b : PBlock) : StepResult :=
  match forkStatus with
  | .unknown => ⟨some tip, [], true⟩
  | .discard => ⟨some tip, [.chainFork b.id], false⟩
  | .identicalBlock => ⟨some tip, [], false⟩
  | .doubleForging => ⟨some tip, [.chainFork b.id], false⟩
  | .differentChain => ⟨some tip, [.syncRequired b.id, .chainFork b.id], false⟩
  | .tieBreak =>
    let forkEvs := [PEvent.chainFork b.id]
    if validateBlock validOk b then
      if tip.height ≤ finalizedHeight then
        ⟨some tip, forkEvs, true⟩
      else
        match pvStep verifyOk applyOk b false with
        | (some newTip, evs) => ⟨some newTip, forkEvs ++ evs, false⟩
        | (none, evs) =>
          match pvStep verifyOk applyOk tip true with
          | (some restored, evs2) => ⟨some restored, forkEvs ++ evs ++ evs2, false⟩
          | (none, evs2) => ⟨none, forkEvs ++ evs ++ evs2, true⟩
    else ⟨some tip, forkEvs, true⟩
  | .validBlock =>
    if validateBlock validOk b then
      match pvStep verifyOk applyOk b false with
      | (some newTip, evs) => ⟨some newTip, evs, false⟩
      | (none, evs) => ⟨some tip, evs, true⟩
    else ⟨some tip, [], true⟩

/-- The processor-facing node state: the shutdown flag set by
`Processor.stop`, the chain tip, the events published so far, and the
number of jobs added to the job queue. -/
structure NodeState where
  stopFlag : Bool
  tip : Option PBlock
  events : List PEvent
  jobsRun : Nat
  deriving Repr, DecidableEq

/-- `Processor.process`: returns immediately when the shutdown flag is
set, otherwise adds the processing job to the job queue. -/
def processCall (validOk verifyOk applyOk : PBlock → Bool) (finalizedHeight : Nat)
    (forkStatus : ForkStatus) (s : NodeState) (b : PBlock) : NodeState :=
  if s.stopFlag then s
  else
    match s.tip with
    | some t =>
      let r := processStep validOk verifyOk applyOk finalizedHeight forkStatus t b
      ⟨s.stopFlag, r.tip, s.events ++ r.events, s.jobsRun + 1⟩
    | none => ⟨s.stopFlag, none, s.events, s.jobsRun + 1⟩

/-- `Processor.processValidated`: returns immediately when the shutdown
flag is set, otherwise runs `_processValidated` with broadcast
suppressed as a job. -/
def processValidatedCall (verifyOk applyOk : PBlock → Bool) (s : NodeState) (b : PBlock) :
    NodeState :=
  if s.stopFlag then s
  else
    match pvStep verifyOk applyOk b true with
    | (some newTip, evs) => ⟨s.stopFlag, some newTip, s.events ++ evs, s.jobsRun + 1⟩
    | (none, evs) => ⟨s.stopFlag, s.tip, s.events ++ evs, s.jobsRun + 1⟩

/-- `Processor.deleteLastBlock`: returns immediately when the shutdown
flag is set, otherwise deletes the tip as a job (failing at or below
the finalized height). -/
def deleteLastBlockCall (finalizedHeight : Nat) (s : NodeState) : NodeState :=
  if s.stopFlag then s
  else
    match s.tip with
    | some t =>
      if t.height ≤ finalizedHeight then ⟨s.stopFlag, s.tip, s.events, s.jobsRun + 1⟩
      else ⟨s.stopFlag, none, s.events, s.jobsRun + 1⟩
    | none => ⟨s.stopFlag, none, s.events, s.jobsRun + 1⟩

/-- `Processor._deleteBlock` composed with `Storage.deleteBlock`: the
height guard throws before anything is touched, so the store comes back
unchanged next to the error; past the guard the deletion runs with a
fresh (empty) state store. -/
def procDeleteBlock (finalizedHeight : Nat) (db : Kv) (id : Bytes) (height : Nat)
    (txIDs : List Bytes) (fullBlock : Bytes) (saveTempBlock : Bool) :
    Kv × Except String StateDiff :=
  if height ≤ finalizedHeight then
    (db, .error "Can not delete block below or same as finalized height")
  else
    match deleteBlock db id height txIDs fullBlock [] saveTempBlock with
    | some (db2, d) => (db2, .ok d)
    | none => (db, .error "Diff not found")

/-!
## `Processor.init` (`processor.ts`)
-/

/-- The pieces of a genesis block `init` reads, with the outcome of the
external `validateGenesisBlockHeader` as an oracle. -/
structure GenesisModel where
  id : Bytes
  height : Nat
  header : Bytes
  valid : Bool

/-- The side effects `init` performs on the non-existing path. -/
inductive InitAction where
  | validatedGenesis
  | appliedGenesisAndHooks
  | savedGenesis
  deriving Repr, DecidableEq

/-- Modelled from the spec: `chain.genesisBlockExist` (the `Chain`
class is not part of the provided sources) — whether the chain already
contains the genesis block, i.e. whether its id is persisted. -/
def genesisBlockExist (db : Kv) (gb : GenesisModel) : Bool :=
  (db (concatDBKeys dbKeyBlocksID gb.id)).isSome

/-- `Processor.init`: skip entirely when the genesis block already
exists; otherwise validate the genesis header, apply it and run the
`afterGenesisBlockApply` hooks (their state mutations are `gtx`), and
save it with finalized height `0`. -/
def procInit (db : Kv) (gb : GenesisModel) (gtx : StateTx) :
    Except String (Kv × List InitAction) :=
  if genesisBlockExist db gb then .ok (db, [])
  else if gb.valid then
    .ok (saveBlock db gb.id gb.height 0 gb.header [] gtx false,
      [.validatedGenesis, .appliedGenesisAndHooks, .savedGenesis])
  else .error "Invalid genesis block"

/-!
## Reducer handler (`Processor._createReducerHandler`)
-/

/-- A registered module as the reducer handler sees it: its name and
its reducers by name (a reducer maps the params to a result). -/
structure ModuleModel where
  name : String
  reducers : List (String × (Nat → Nat))

/-- `ReducerHandler.invoke`: split the name on `:`; exactly two parts
are required; the first resolves the module, the second the reducer;
the reducer is applied only when both resolve. -/
def invokeReducer (modules : List ModuleModel) (nm : String) (params : Nat) :
    Except String Nat :=
  match nm.splitOn ":" with
  | [moduleName, funcName] =>
    match modules.find? fun m => m.name == moduleName with
    | none => .error ("Module " ++ moduleName ++ " does not exist")
    | some m =>
      match m.reducers.find? fun r => r.1 == funcName with
      | none => .error (funcName ++ " does not exist in module " ++ moduleName)
      | some r => .ok (r.2 params)
  | _ => .error "Invalid format to call reducer"

/-!
## Transport rate limiting

Modelled from the spec: the `Transport` class (`node/transport`) is not
part of the provided sources — only its unit test is.  Per the spec,
`handleRPCGetTransactions` is rate-limited at 3 calls per sliding
10-second window keyed by `(peerId, rpc-name)`; each call beyond the
third within the window applies penalty 10 to the peer.
-/

/-- Calls per window allowed before the penalty. -/
def DEFAULT_RATE_LIMIT_FREQUENCY : Nat := 3

/-- The sliding window, in milliseconds. -/
def RATE_WINDOW_MS : Nat := 10000

/-- A peer-penalty request sent over `app:applyPenaltyOnPeer`. -/
structure PenaltyMsg where
  peerId : String
  penalty : Nat
  deriving Repr, DecidableEq

/-- How many of the recorded call timestamps fall inside the sliding
window ending at `now`. -/
def recentCount (calls : List Nat) (now : Nat) : Nat :=
  (calls.filter fun t => now < t + RATE_WINDOW_MS).length

/-- Modelled from the spec: the rate-limiting entry of
`handleRPCGetTransactions` for one peer — record the call, and apply
penalty 10 when the window now holds more than the allowed number of
calls. -/
def handleRPCGetTransactionsRate (calls : List Nat) (peerId : String) (now : Nat) :
    List Nat × List PenaltyMsg :=
  let calls2 := now :: calls
  if DEFAULT_RATE_LIMIT_FREQUENCY < recentCount calls2 now then
    (calls2, [⟨peerId, 10⟩])
  else (calls2, [])

/-!
## Bus (`controller/bus.ts`)
-/

/-- The registered namespaced event and action names of the bus. -/
structure BusState where
  events : List String
  actions : List String
  deriving Repr, DecidableEq

/-- The event loop of `Bus.registerChannel`: reject any namespaced
event name already registered, record the rest one by one. -/
def registerEvents (moduleAlias : String) (st : BusState) :
    List String → Except String BusState
  | [] => .ok st
  | e :: rest =>
    if (moduleAlias ++ ":" ++ e) ∈ st.events then
      .error ("Event " ++ e ++ " already registered with bus.")
    else
      registerEvents moduleAlias
        { st with events := st.events ++ [moduleAlias ++ ":" ++ e] } rest

/-- The action loop of `Bus.registerChannel`: reject any namespaced
action name already registered, record the rest one by one. -/
def registerActions (moduleAlias : String) (st : BusState) :
    List String → Except String BusState
  | [] => .ok st
  | a :: rest =>
    if (moduleAlias ++ ":" ++ a) ∈ st.actions then
      .error ("Action " ++ a ++ " already registered with bus.")
    else
      registerActions moduleAlias
        { st with actions := st.actions ++ [moduleAlias ++ ":" ++ a] } rest

/-- `Bus.registerChannel` (the name bookkeeping): namespace the events
and actions under the module alias, rejecting duplicates. -/
def registerChannel (st : BusState) (moduleAlias : String)
    (evs acts : List String) : Except String BusState :=
  match registerEvents moduleAlias st evs with
  | .ok st2 => registerActions moduleAlias st2 acts
  | .error e => .error e

/-!
## Write-batch evaluation lemmas
-/

/-- The value a batch operation leaves under its own key. -/
def opValue : BatchOp → Option DBValue
  | .put _ v => some v
  | .del _ => none

theorem applyOp_key (g : Kv) (op : BatchOp) (k : Key) :
    applyOp g op k = if k = op.key then opValue op else g k := by
  cases op <;> rfl

/-- Committing a batch leaves, under each key, the value of the last
queued operation touching it (or the prior value when none does). -/
theorem writeBatch_key (g : Kv) (ops : List BatchOp) (k : Key) :
    writeBatch g ops k =
      match ops.reverse.find? (fun op => op.key == k) with
      | some op => opValue op
      | none => g k := by
  induction ops generalizing g with
  | nil => rfl
  | cons op rest ih =>
    have hstep : writeBatch g (op :: rest) = writeBatch (applyOp g op) rest := rfl
    rw [hstep, ih]
    simp only [List.reverse_cons, List.find?_append]
    cases hfind : rest.reverse.find? (fun o => o.key == k) with
    | some o => simp [Option.or]
    | none =>
      by_cases hop : op.key = k
      · simp [Option.or, List.find?, hop, applyOp_key, opValue]
      · simp only [Option.or, List.find?]
        rw [show (op.key == k) = false by simpa using hop]
        simp only [applyOp_key]
        rw [if_neg fun h => hop h.symm]

theorem find?_key_eq_none (ops : List BatchOp) (k : Key)
    (h : ∀ op ∈ ops, op.key ≠ k) :
    (ops.find? fun op => op.key == k) = none := by
  induction ops with
  | nil => rfl
  | cons op rest ih =>
    simp only [List.find?]
    rw [show (op.key == k) = false by simpa using h op (List.mem_cons_self op rest)]
    exact ih fun o ho => h o (List.mem_cons_of_mem op ho)

/-- No operation of a key-respecting `filterMap` segment touches a key
outside the segment's key set. -/
theorem find?_rev_filterMap_none {α : Type} (f : α → Option BatchOp) (keyOf : α → Key)
    (hf : ∀ x op, f x = some op → op.key = keyOf x) (l : List α) (k : Key)
    (hk : ∀ x ∈ l, keyOf x ≠ k) :
    ((l.filterMap f).reverse.find? fun op => op.key == k) = none := by
  apply find?_key_eq_none
  intro op hop
  rw [List.mem_reverse, List.mem_filterMap] at hop
  obtain ⟨x, hx, hfx⟩ := hop
  rw [hf x op hfx]
  exact hk x hx

/-- In a key-respecting `filterMap` segment over pairwise-distinct
keys, the last (indeed only) operation touching the key of a member is
the member's own operation. -/
theorem find?_rev_filterMap_key {α : Type} (f : α → Option BatchOp) (keyOf : α → Key)
    (hf : ∀ x op, f x = some op → op.key = keyOf x) :
    ∀ (l : List α) (x : α) (k : Key), x ∈ l → keyOf x = k → (l.map keyOf).Nodup →
    ((l.filterMap f).reverse.find? fun op => op.key == k) = f x := by
  intro l
  induction l with
  | nil => intro x k hx; exact absurd hx (List.not_mem_nil x)
  | cons y ys ih =>
    intro x k hx hkx hnd
    have hnd2 : (ys.map keyOf).Nodup := (List.nodup_cons.mp (by simpa using hnd)).2
    have hyk : keyOf y ∉ ys.map keyOf := (List.nodup_cons.mp (by simpa using hnd)).1
    rcases List.mem_cons.mp hx with hxy | hxys
    · subst hxy
      have htail : ((ys.filterMap f).reverse.find? fun op => op.key == k) = none := by
        apply find?_rev_filterMap_none f keyOf hf
        intro z hz hzk
        exact hyk (hkx ▸ hzk ▸ List.mem_map_of_mem keyOf hz)
      cases hfy : f x with
      | none => simpa [List.filterMap_cons, hfy] using htail
      | some op =>
        have hopk : op.key = k := hkx ▸ hf x op hfy
        simp [List.filterMap_cons, hfy, List.find?_append, htail, Option.or, List.find?, hopk]
    · have hyne : keyOf y ≠ k := by
        intro heq
        exact hyk (heq ▸ hkx ▸ List.mem_map_of_mem keyOf hxys)
      cases hfy : f y with
      | none => simpa [List.filterMap_cons, hfy] using ih x k hxys hkx hnd2
      | some op =>
        have hopk : op.key ≠ k := by rw [hf y op hfy]; exact hyne
        rw [List.filterMap_cons, hfy, List.reverse_cons, List.find?_append]
        rw [ih x k hxys hkx hnd2]
        cases hfx : f x with
        | some o => simp [Option.or]
        | none =>
          simp only [Option.or, List.find?]
          rw [show (op.key == k) = false by simpa using hopk]

theorem filter_map_eq_filterMap {α β : Type} (q : α → Bool) (f : α → β) (l : List α) :
    (l.filter q).map f = l.filterMap fun x => if q x then some (f x) else none := by
  induction l with
  | nil => rfl
  | cons a l ih =>
    by_cases hq : q a <;> simp [List.filter_cons, List.filterMap_cons, hq, ih]

/-- Lexicographic order on 4-byte big-endian encodings agrees with the
numeric order of `u32` heights. -/
theorem bufLt_formatInt (a b : Nat) (ha : a < 2 ^ 32) (hb : b < 2 ^ 32) :
    bufLt (formatInt a) (formatInt b) = decide (a < b) := by
  simp only [formatInt, bufLt]
  split_ifs <;>
    first
    | (rw [eq_comm, decide_eq_true_eq]; omega)
    | (rw [eq_comm, decide_eq_false_iff_not]; omega)

/-- `_cleanUntil` touches only `DIFF_STATE`-tagged keys. -/
theorem cleanUntil_ne_diff (db : Kv) (fh : Nat) (t : Nat) (rest : List Nat) (ht : t ≠ 8) :
    cleanUntil db fh (t :: rest) = db (t :: rest) := by
  unfold cleanUntil clearRange concatDBKeys dbKeyDiffState
  rcases Nat.lt_trichotomy t 8 with h | h | h
  · simp [bufLt, h]
  · exact absurd h ht
  · simp [bufLt, Nat.lt_asymm h, h]

/-- `_cleanUntil` leaves the diff of a height at or above the clearing
bound in place. -/
theorem cleanUntil_diff_ge (db : Kv) (fh h : Nat) (hfh : fh ≤ h) (h32 : h < 2 ^ 32) :
    cleanUntil db fh (concatDBKeys dbKeyDiffState (formatInt h)) =
      db (concatDBKeys dbKeyDiffState (formatInt h)) := by
  unfold cleanUntil clearRange
  have hlt : bufLt (concatDBKeys dbKeyDiffState (formatInt h))
      (concatDBKeys dbKeyDiffState (formatInt fh)) = false := by
    show bufLt (8 :: formatInt h) (8 :: formatInt fh) = false
    have : bufLt (8 :: formatInt h) (8 :: formatInt fh) = bufLt (formatInt h) (formatInt fh) := by
      simp [bufLt]
    rw [this, bufLt_formatInt h fh h32 (lt_of_le_of_lt hfh h32)]
    simpa using Nat.not_lt.mpr hfh
  rw [hlt]
  simp

/-- A state-domain key starts with the accounts or chain-state tag. -/
theorem state_key_shape (k : Key) (h : isStateKey k = true) :
    ∃ rest, k = tagAccounts :: rest ∨ k = tagChainState :: rest := by
  match k with
  | [] => simp [isStateKey] at h
  | t :: rest =>
    simp only [isStateKey, Bool.or_eq_true, beq_iff_eq] at h
    exact ⟨rest, h.elim (fun h1 => Or.inl (by rw [h1])) (fun h2 => Or.inr (by rw [h2]))⟩

theorem find?_rev_none_of_keys (ops : List BatchOp) (k : Key)
    (h : ∀ op ∈ ops, op.key ≠ k) :
    (ops.reverse.find? fun op => op.key == k) = none :=
  find?_key_eq_none _ _ fun op hop => h op (List.mem_reverse.mp hop)

theorem find?_rev_append (xs ys : List BatchOp) (p : BatchOp → Bool) :
    ((xs ++ ys).reverse.find? p) = (ys.reverse.find? p).or (xs.reverse.find? p) := by
  rw [List.reverse_append, List.find?_append]

theorem snapshotOf_eq_none (db : Kv) (k : Key)
    (hbv : ∀ d, db k ≠ some (.diffVal d)) (h : snapshotOf db k = none) : db k = none := by
  cases hdb : db k with
  | none => rfl
  | some v =>
    cases v with
    | bytes b => rw [snapshotOf, hdb] at h; exact absurd h (by simp)
    | diffVal d => exact absurd hdb (hbv d)

theorem snapshotOf_eq_some (db : Kv) (k : Key) (pre : Bytes)
    (h : snapshotOf db k = some pre) : db k = some (.bytes pre) := by
  cases hdb : db k with
  | none => rw [snapshotOf, hdb] at h; exact absurd h (by simp)
  | some v =>
    cases v with
    | bytes b => rw [snapshotOf, hdb] at h; simp at h; rw [h]
    | diffVal d => rw [snapshotOf, hdb] at h; exact absurd h (by simp)

theorem key_cons_ne (a : Nat) (x : List Nat) (t : Nat) (rest : List Nat) (h : a ≠ t) :
    a :: x ≠ t :: rest := by
  intro heq
  rw [List.cons.injEq] at heq
  exact h heq.1

theorem flushOps_eq_filterMap (tx : StateTx) :
    flushOps tx = tx.filterMap fun kv =>
      some (match kv.2 with
            | some v => BatchOp.put kv.1 (DBValue.bytes v)
            | none => BatchOp.del kv.1) := by
  induction tx with
  | nil => rfl
  | cons kv rest ih =>
    show _ :: flushOps rest = _ :: rest.filterMap _
    rw [ih]

/-- At a state-domain key, the only operations of a `saveBlock` batch
are the flushed state-store mutations. -/
theorem saveOps_find_state (db : Kv) (id header : Bytes) (h fh : Nat)
    (payload : List (Bytes × Bytes)) (tx : StateTx) (rft : Bool)
    (t : Nat) (rest : List Nat) (ht : t = tagAccounts ∨ t = tagChainState) :
    ((saveBlockOps db id h fh header payload tx rft).reverse.find?
        fun op => op.key == (t :: rest)) =
      ((flushOps tx).reverse.find? fun op => op.key == (t :: rest)) := by
  have ht10 : t = 10 ∨ t = 11 := by
    rcases ht with h1 | h1 <;> [exact Or.inl h1; exact Or.inr h1]
  have h1 : (([BatchOp.put (concatDBKeys dbKeyBlocksID id) (DBValue.bytes header),
      BatchOp.put (concatDBKeys dbKeyBlocksHeight (formatInt h)) (DBValue.bytes id)] :
        List BatchOp).reverse.find? fun op => op.key == (t :: rest)) = none := by
    apply find?_rev_none_of_keys
    intro op hop
    simp only [List.mem_cons, List.not_mem_nil, or_false] at hop
    rcases hop with h2 | h2 <;> subst h2
    · exact key_cons_ne 3 id t rest (by omega)
    · exact key_cons_ne 4 (formatInt h) t rest (by omega)
  have h2 : ((if payload.length > 0 then
        (payload.map fun p => BatchOp.put (concatDBKeys dbKeyTransactionsID p.1) (DBValue.bytes p.2))
        ++ [BatchOp.put (concatDBKeys dbKeyTransactionsBlockID id)
              (DBValue.bytes (payload.map Prod.fst).flatten)]
      else []).reverse.find? fun op => op.key == (t :: rest)) = none := by
    apply find?_rev_none_of_keys
    intro op hop
    split at hop
    · rw [List.mem_append] at hop
      rcases hop with h3 | h3
      · rw [List.mem_map] at h3
        obtain ⟨p, _, hp⟩ := h3
        subst hp
        exact key_cons_ne 5 p.1 t rest (by omega)
      · simp only [List.mem_cons, List.not_mem_nil, or_false] at h3
        subst h3
        exact key_cons_ne 6 id t rest (by omega)
    · exact absurd hop (List.not_mem_nil op)
  have h3 : ((if rft then [BatchOp.del (concatDBKeys dbKeyTempBlocksHeight (formatInt h))]
      else []).reverse.find? fun op => op.key == (t :: rest)) = none := by
    apply find?_rev_none_of_keys
    intro op hop
    split at hop
    · simp only [List.mem_cons, List.not_mem_nil, or_false] at hop
      subst hop
      exact key_cons_ne 7 (formatInt h) t rest (by omega)
    · exact absurd hop (List.not_mem_nil op)
  have h5 : (([BatchOp.put (concatDBKeys dbKeyDiffState (formatInt h)) (DBValue.diffVal (diffOfTx db tx)),
      BatchOp.put dbKeyFinalizedHeight (DBValue.bytes (formatInt fh))] :
        List BatchOp).reverse.find? fun op => op.key == (t :: rest)) = none := by
    apply find?_rev_none_of_keys
    intro op hop
    simp only [List.mem_cons, List.not_mem_nil, or_false] at hop
    rcases hop with h6 | h6 <;> subst h6
    · exact key_cons_ne 8 (formatInt h) t rest (by omega)
    · exact key_cons_ne 9 [] t rest (by omega)
  unfold saveBlockOps
  rw [find?_rev_append, find?_rev_append, find?_rev_append, find?_rev_append]
  rw [h1, h2, h3, h5]
  cases hf : ((flushOps tx).reverse.find? fun op => op.key == (t :: rest)) <;>
    simp [Option.or]

/-- The flushed state-store mutation of a touched key is the last batch
operation on it: after `saveBlock` the key holds the transition's final
overlay value. -/
theorem saveBlock_state_key_mem (db : Kv) (id header : Bytes) (h fh : Nat)
    (payload : List (Bytes × Bytes)) (tx : StateTx) (rft : Bool)
    (k : Key) (fin : Option Bytes)
    (hkst : isStateKey k = true)
    (hmem : (k, fin) ∈ tx)
    (hnd : (tx.map Prod.fst).Nodup) :
    saveBlock db id h fh header payload tx rft k = fin.map DBValue.bytes := by
  obtain ⟨rest, hrest⟩ := state_key_shape k hkst
  have hk : ∃ t, k = t :: rest ∧ (t = tagAccounts ∨ t = tagChainState) := by
    rcases hrest with h1 | h1
    · exact ⟨tagAccounts, h1, Or.inl rfl⟩
    · exact ⟨tagChainState, h1, Or.inr rfl⟩
  obtain ⟨t, hkt, ht⟩ := hk
  unfold saveBlock
  rw [hkt]
  rw [cleanUntil_ne_diff _ _ _ _ (by rcases ht with h1 | h1 <;> simp [h1, tagAccounts, tagChainState])]
  rw [writeBatch_key, saveOps_find_state db id header h fh payload tx rft t rest ht]
  rw [flushOps_eq_filterMap]
  rw [find?_rev_filterMap_key _ Prod.fst
    (by
      intro x op hx
      simp only [Option.some.injEq] at hx
      subst hx
      cases hx2 : x.2 <;> simp [hx2, BatchOp.key])
    tx (k, fin) (t :: rest) hmem hkt hnd]
  cases fin <;> simp [opValue]

/-- `saveBlock` leaves untouched state-domain keys unchanged. -/
theorem saveBlock_state_key_not_mem (db : Kv) (id header : Bytes) (h fh : Nat)
    (payload : List (Bytes × Bytes)) (tx : StateTx) (rft : Bool) (k : Key)
    (hkst : isStateKey k = true)
    (hmem : k ∉ tx.map Prod.fst) :
    saveBlock db id h fh header payload tx rft k = db k := by
  obtain ⟨rest, hrest⟩ := state_key_shape k hkst
  have hk : ∃ t, k = t :: rest ∧ (t = tagAccounts ∨ t = tagChainState) := by
    rcases hrest with h1 | h1
    · exact ⟨tagAccounts, h1, Or.inl rfl⟩
    · exact ⟨tagChainState, h1, Or.inr rfl⟩
  obtain ⟨t, hkt, ht⟩ := hk
  unfold saveBlock
  rw [hkt]
  rw [cleanUntil_ne_diff _ _ _ _ (by rcases ht with h1 | h1 <;> simp [h1, tagAccounts, tagChainState])]
  rw [writeBatch_key, saveOps_find_state db id header h fh payload tx rft t rest ht]
  rw [flushOps_eq_filterMap]
  rw [find?_rev_filterMap_none _ Prod.fst
    (by
      intro x op hx
      simp only [Option.some.injEq] at hx
      subst hx
      cases hx2 : x.2 <;> simp [hx2, BatchOp.key])
    tx (t :: rest)
    (by intro x hx hxk; exact hmem (hkt ▸ hxk ▸ List.mem_map_of_mem Prod.fst hx))]

/-- After `saveBlock`, the encoded diff of the transition sits under
`DIFF_STATE` at the block's height. -/
theorem saveBlock_diff_key (db : Kv) (id header : Bytes) (h fh : Nat)
    (payload : List (Bytes × Bytes)) (tx : StateTx) (rft : Bool)
    (hfh : fh ≤ h) (h32 : h < 2 ^ 32) :
    saveBlock db id h fh header payload tx rft
        (concatDBKeys dbKeyDiffState (formatInt h)) =
      some (.diffVal (diffOfTx db tx)) := by
  unfold saveBlock
  rw [cleanUntil_diff_ge _ fh h hfh h32]
  rw [writeBatch_key]
  unfold saveBlockOps
  rw [find?_rev_append, find?_rev_append, find?_rev_append, find?_rev_append]
  have h5 : (([BatchOp.put (concatDBKeys dbKeyDiffState (formatInt h)) (DBValue.diffVal (diffOfTx db tx)),
      BatchOp.put dbKeyFinalizedHeight (DBValue.bytes (formatInt fh))] :
        List BatchOp).reverse.find?
          fun op => op.key == concatDBKeys dbKeyDiffState (formatInt h)) =
      some (BatchOp.put (concatDBKeys dbKeyDiffState (formatInt h)) (DBValue.diffVal (diffOfTx db tx))) := by
    rw [show ([BatchOp.put (concatDBKeys dbKeyDiffState (formatInt h)) (DBValue.diffVal (diffOfTx db tx)),
        BatchOp.put dbKeyFinalizedHeight (DBValue.bytes (formatInt fh))] :
          List BatchOp).reverse =
      [BatchOp.put dbKeyFinalizedHeight (DBValue.bytes (formatInt fh)),
       BatchOp.put (concatDBKeys dbKeyDiffState (formatInt h)) (DBValue.diffVal (diffOfTx db tx))] from rfl]
    rw [List.find?_cons, List.find?_cons]
    have hne : ((BatchOp.put dbKeyFinalizedHeight (DBValue.bytes (formatInt fh))).key ==
        concatDBKeys dbKeyDiffState (formatInt h)) = false := by
      rw [beq_eq_false_iff_ne]
      exact key_cons_ne 9 [] 8 (formatInt h) (by omega)
    have heq : ((BatchOp.put (concatDBKeys dbKeyDiffState (formatInt h))
        (DBValue.diffVal (diffOfTx db tx))).key ==
        concatDBKeys dbKeyDiffState (formatInt h)) = true := by
      rw [beq_iff_eq]
      rfl
    rw [hne, heq]
  rw [h5]
  simp [Option.or, opValue]

/-- The single inverse operation the stored diff contributes for a
touched key, by the classification of the key in the diff. -/
def invOpFor (snap : Option Bytes) (k : Key) (fin : Option Bytes) : Option BatchOp :=
  match snap, fin with
  | none, some _ => some (.del k)
  | some pre, some _ => some (.put k (.bytes pre))
  | some pre, none => some (.put k (.bytes pre))
  | none, none => none

theorem key_of_createdOp (db : Kv) (x : Key × Option Bytes) (op : BatchOp)
    (hx : (if (snapshotOf db x.1).isNone && x.2.isSome then some (BatchOp.del x.1) else none)
      = some op) : op.key = x.1 := by
  split at hx
  · injection hx with hop
    rw [← hop]
    rfl
  · exact Option.noConfusion hx

theorem key_of_deletedOp (db : Kv) (x : Key × Option Bytes) (op : BatchOp)
    (hx : (match snapshotOf db x.1, x.2 with
           | some pre, none => some (BatchOp.put x.1 (DBValue.bytes pre))
           | _, _ => none) = some op) : op.key = x.1 := by
  cases hs : snapshotOf db x.1 <;> cases h2 : x.2 <;> rw [hs, h2] at hx <;>
    first
    | exact Option.noConfusion hx
    | (injection hx with hop; rw [← hop]; rfl)

theorem key_of_updatedOp (db : Kv) (x : Key × Option Bytes) (op : BatchOp)
    (hx : (match snapshotOf db x.1, x.2 with
           | some pre, some _ => some (BatchOp.put x.1 (DBValue.bytes pre))
           | _, _ => none) = some op) : op.key = x.1 := by
  cases hs : snapshotOf db x.1 <;> cases h2 : x.2 <;> rw [hs, h2] at hx <;>
    first
    | exact Option.noConfusion hx
    | (injection hx with hop; rw [← hop]; rfl)

theorem inverseDiffOps_eq_filterMap (db : Kv) (tx : StateTx) :
    inverseDiffOps (diffOfTx db tx) =
      (tx.filterMap fun kv =>
        if (snapshotOf db kv.1).isNone && kv.2.isSome then some (BatchOp.del kv.1) else none)
      ++ (tx.filterMap fun kv =>
            match snapshotOf db kv.1, kv.2 with
            | some pre, none => some (BatchOp.put kv.1 (DBValue.bytes pre))
            | _, _ => none)
      ++ (tx.filterMap fun kv =>
            match snapshotOf db kv.1, kv.2 with
            | some pre, some _ => some (BatchOp.put kv.1 (DBValue.bytes pre))
            | _, _ => none) := by
  have hc : (diffOfTx db tx).created.map (fun k => BatchOp.del k) =
      tx.filterMap fun kv =>
        if (snapshotOf db kv.1).isNone && kv.2.isSome then some (BatchOp.del kv.1) else none := by
    show ((tx.filter _).map Prod.fst).map _ = _
    rw [List.map_map, filter_map_eq_filterMap]
    rfl
  have hd : (diffOfTx db tx).deleted.map (fun e => BatchOp.put e.key (DBValue.bytes e.value)) =
      tx.filterMap fun kv =>
        match snapshotOf db kv.1, kv.2 with
        | some pre, none => some (BatchOp.put kv.1 (DBValue.bytes pre))
        | _, _ => none := by
    show (tx.filterMap _).map _ = _
    rw [List.map_filterMap]
    congr 1
    funext kv
    cases hs : snapshotOf db kv.1 <;> cases h2 : kv.2 <;> simp [hs, h2]
  have hu : (diffOfTx db tx).updated.map (fun e => BatchOp.put e.key (DBValue.bytes e.value)) =
      tx.filterMap fun kv =>
        match snapshotOf db kv.1, kv.2 with
        | some pre, some _ => some (BatchOp.put kv.1 (DBValue.bytes pre))
        | _, _ => none := by
    show (tx.filterMap _).map _ = _
    rw [List.map_filterMap]
    congr 1
    funext kv
    cases hs : snapshotOf db kv.1 <;> cases h2 : kv.2 <;> simp [hs, h2]
  unfold inverseDiffOps
  rw [hc, hd, hu]

theorem inv_find_key (db : Kv) (tx : StateTx) (k : Key) (fin : Option Bytes)
    (hmem : (k, fin) ∈ tx) (hnd : (tx.map Prod.fst).Nodup) :
    ((inverseDiffOps (diffOfTx db tx)).reverse.find? fun op => op.key == k) =
      invOpFor (snapshotOf db k) k fin := by
  rw [inverseDiffOps_eq_filterMap]
  rw [find?_rev_append, find?_rev_append]
  rw [find?_rev_filterMap_key
    (fun kv => if (snapshotOf db kv.1).isNone && kv.2.isSome then some (BatchOp.del kv.1) else none)
    Prod.fst (key_of_createdOp db) tx (k, fin) k hmem rfl hnd]
  rw [find?_rev_filterMap_key
    (fun kv => match snapshotOf db kv.1, kv.2 with
               | some pre, none => some (BatchOp.put kv.1 (DBValue.bytes pre))
               | _, _ => none)
    Prod.fst (key_of_deletedOp db) tx (k, fin) k hmem rfl hnd]
  rw [find?_rev_filterMap_key
    (fun kv => match snapshotOf db kv.1, kv.2 with
               | some pre, some _ => some (BatchOp.put kv.1 (DBValue.bytes pre))
               | _, _ => none)
    Prod.fst (key_of_updatedOp db) tx (k, fin) k hmem rfl hnd]
  cases hs : snapshotOf db k <;> cases fin <;> simp [invOpFor, hs, Option.or]

theorem inv_find_not_mem (db : Kv) (tx : StateTx) (k : Key)
    (hmem : k ∉ tx.map Prod.fst) :
    ((inverseDiffOps (diffOfTx db tx)).reverse.find? fun op => op.key == k) = none := by
  have hk : ∀ x ∈ tx, x.1 ≠ k := by
    intro x hx hxk
    exact hmem (hxk ▸ List.mem_map_of_mem Prod.fst hx)
  rw [inverseDiffOps_eq_filterMap]
  rw [find?_rev_append, find?_rev_append]
  rw [find?_rev_filterMap_none
    (fun kv => if (snapshotOf db kv.1).isNone && kv.2.isSome then some (BatchOp.del kv.1) else none)
    Prod.fst (key_of_createdOp db) tx k hk]
  rw [find?_rev_filterMap_none
    (fun kv => match snapshotOf db kv.1, kv.2 with
               | some pre, none => some (BatchOp.put kv.1 (DBValue.bytes pre))
               | _, _ => none)
    Prod.fst (key_of_deletedOp db) tx k hk]
  rw [find?_rev_filterMap_none
    (fun kv => match snapshotOf db kv.1, kv.2 with
               | some pre, some _ => some (BatchOp.put kv.1 (DBValue.bytes pre))
               | _, _ => none)
    Prod.fst (key_of_updatedOp db) tx k hk]
  rfl

/-- At a state-domain key, the only operations of a `deleteBlock` batch
with a fresh state store are the inverse operations of the diff. -/
theorem deleteOps_find_state (id fullBlock : Bytes) (height : Nat) (txIDs : List Bytes)
    (d : StateDiff) (saveToTemp : Bool) (t : Nat) (rest : List Nat)
    (ht : t = tagAccounts ∨ t = tagChainState) :
    ((deleteBlockOps id height txIDs fullBlock d [] saveToTemp).reverse.find?
        fun op => op.key == (t :: rest)) =
      ((inverseDiffOps d).reverse.find? fun op => op.key == (t :: rest)) := by
  have ht10 : t = 10 ∨ t = 11 := by
    rcases ht with h1 | h1 <;> [exact Or.inl h1; exact Or.inr h1]
  have h1 : (([BatchOp.del (concatDBKeys dbKeyBlocksID id),
      BatchOp.del (concatDBKeys dbKeyBlocksHeight (formatInt height))] :
        List BatchOp).reverse.find? fun op => op.key == (t :: rest)) = none := by
    apply find?_rev_none_of_keys
    intro op hop
    simp only [List.mem_cons, List.not_mem_nil, or_false] at hop
    rcases hop with h2 | h2 <;> subst h2
    · exact key_cons_ne 3 id t rest (by omega)
    · exact key_cons_ne 4 (formatInt height) t rest (by omega)
  have h2 : ((if txIDs.length > 0 then
        (txIDs.map fun x => BatchOp.del (concatDBKeys dbKeyTransactionsID x))
        ++ [BatchOp.del (concatDBKeys dbKeyTransactionsBlockID id)]
      else []).reverse.find? fun op => op.key == (t :: rest)) = none := by
    apply find?_rev_none_of_keys
    intro op hop
    split at hop
    · rw [List.mem_append] at hop
      rcases hop with h3 | h3
      · rw [List.mem_map] at h3
        obtain ⟨x, _, hx⟩ := h3
        subst hx
        exact key_cons_ne 5 x t rest (by omega)
      · simp only [List.mem_cons, List.not_mem_nil, or_false] at h3
        subst h3
        exact key_cons_ne 6 id t rest (by omega)
    · exact absurd hop (List.not_mem_nil op)
  have h3 : ((if saveToTemp then
        [BatchOp.put (concatDBKeys dbKeyTempBlocksHeight (formatInt height)) (DBValue.bytes fullBlock)]
      else []).reverse.find? fun op => op.key == (t :: rest)) = none := by
    apply find?_rev_none_of_keys
    intro op hop
    split at hop
    · simp only [List.mem_cons, List.not_mem_nil, or_false] at hop
      subst hop
      exact key_cons_ne 7 (formatInt height) t rest (by omega)
    · exact absurd hop (List.not_mem_nil op)
  have h6 : (([BatchOp.del (concatDBKeys dbKeyDiffState (formatInt height))] :
        List BatchOp).reverse.find? fun op => op.key == (t :: rest)) = none := by
    apply find?_rev_none_of_keys
    intro op hop
    simp only [List.mem_cons, List.not_mem_nil, or_false] at hop
    subst hop
    exact key_cons_ne 8 (formatInt height) t rest (by omega)
  unfold deleteBlockOps
  rw [find?_rev_append, find?_rev_append, find?_rev_append, find?_rev_append, find?_rev_append]
  rw [h1, h2, h3, h6]
  rw [show ((flushOps []).reverse.find? fun op => op.key == (t :: rest)) = none from rfl]
  cases hf : ((inverseDiffOps d).reverse.find? fun op => op.key == (t :: rest)) <;>
    simp [Option.or]

/-- The last `deleteBlock` batch operation on the diff key is its
removal. -/
theorem deleteOps_find_diff (id fullBlock : Bytes) (height : Nat) (txIDs : List Bytes)
    (d : StateDiff) (tx : StateTx) (saveToTemp : Bool) :
    ((deleteBlockOps id height txIDs fullBlock d tx saveToTemp).reverse.find?
        fun op => op.key == concatDBKeys dbKeyDiffState (formatInt height)) =
      some (BatchOp.del (concatDBKeys dbKeyDiffState (formatInt height))) := by
  unfold deleteBlockOps
  rw [find?_rev_append, find?_rev_append, find?_rev_append, find?_rev_append, find?_rev_append]
  have h6 : (([BatchOp.del (concatDBKeys dbKeyDiffState (formatInt height))] :
        List BatchOp).reverse.find?
          fun op => op.key == concatDBKeys dbKeyDiffState (formatInt height)) =
      some (BatchOp.del (concatDBKeys dbKeyDiffState (formatInt height))) := by
    rw [show ([BatchOp.del (concatDBKeys dbKeyDiffState (formatInt height))] :
          List BatchOp).reverse =
        [BatchOp.del (concatDBKeys dbKeyDiffState (formatInt height))] from rfl]
    rw [List.find?_cons]
    rw [show ((BatchOp.del (concatDBKeys dbKeyDiffState (formatInt height))).key ==
        concatDBKeys dbKeyDiffState (formatInt height)) = true from by rw [beq_iff_eq]; rfl]
  rw [h6]
  rfl

/-- C1: deleting a block through `Storage.deleteBlock` loads the stored
diff of the height, applies its inverse and removes the stored diff in
one atomically committed batch; for a block whose save produced the
diff, the deletion restores every state-domain key to its pre-block
value and leaves no diff at the height. -/
theorem deleteBlock_inverts_saveBlock
    (db : Kv) (id header fullBlock : Bytes) (height finalizedHeight : Nat)
    (payload : List (Bytes × Bytes)) (tx : StateTx) (removeFromTemp saveToTemp : Bool)
    (hbv : ∀ kv ∈ tx, ∀ d, db kv.1 ≠ some (DBValue.diffVal d))
    (hnd : (tx.map Prod.fst).Nodup)
    (hfh : finalizedHeight ≤ height) (h32 : height < 2 ^ 32) :
    ∃ db2,
      deleteBlock (saveBlock db id height finalizedHeight header payload tx removeFromTemp)
          id height (payload.map Prod.fst) fullBlock [] saveToTemp
        = some (db2, diffOfTx db tx) ∧
      (∀ k, isStateKey k = true → db2 k = db k) ∧
      db2 (concatDBKeys dbKeyDiffState (formatInt height)) = none := by
  have hdiff : saveBlock db id height finalizedHeight header payload tx removeFromTemp
      (concatDBKeys dbKeyDiffState (formatInt height)) =
      some (.diffVal (diffOfTx db tx)) :=
    saveBlock_diff_key db id header height finalizedHeight payload tx removeFromTemp hfh h32
  refine ⟨writeBatch (saveBlock db id height finalizedHeight header payload tx removeFromTemp)
    (deleteBlockOps id height (payload.map Prod.fst) fullBlock (diffOfTx db tx) [] saveToTemp),
    ?_, ?_, ?_⟩
  · rw [deleteBlock, hdiff]
  · intro k hkst
    obtain ⟨rest, hrest⟩ := state_key_shape k hkst
    have hk : ∃ t, k = t :: rest ∧ (t = tagAccounts ∨ t = tagChainState) := by
      rcases hrest with h1 | h1
      · exact ⟨tagAccounts, h1, Or.inl rfl⟩
      · exact ⟨tagChainState, h1, Or.inr rfl⟩
    obtain ⟨t, hkt, ht⟩ := hk
    rw [writeBatch_key, hkt,
      deleteOps_find_state id fullBlock height (payload.map Prod.fst) (diffOfTx db tx) saveToTemp t rest ht,
      ← hkt]
    by_cases hmem : k ∈ tx.map Prod.fst
    · rw [List.mem_map] at hmem
      obtain ⟨kv, hkv, hkvk⟩ := hmem
      have hkv2 : (k, kv.2) ∈ tx := by rw [← hkvk]; exact hkv
      rw [inv_find_key db tx k kv.2 hkv2 hnd]
      cases hs : snapshotOf db k with
      | none =>
        have hdbk : db k = none :=
          snapshotOf_eq_none db k (fun d => hbv (k, kv.2) hkv2 d) hs
        cases h2 : kv.2 with
        | none =>
          rw [invOpFor]
          rw [saveBlock_state_key_mem db id header height finalizedHeight payload tx
            removeFromTemp k kv.2 hkst hkv2 hnd]
          rw [h2, hdbk]
          rfl
        | some v =>
          rw [invOpFor, hdbk]
          rfl
      | some pre =>
        have hdbk : db k = some (.bytes pre) := snapshotOf_eq_some db k pre hs
        cases h2 : kv.2 with
        | none => rw [invOpFor, hdbk]; rfl
        | some v => rw [invOpFor, hdbk]; rfl
    · rw [inv_find_not_mem db tx k hmem]
      exact saveBlock_state_key_not_mem db id header height finalizedHeight payload tx
        removeFromTemp k hkst hmem
  · rw [writeBatch_key,
      deleteOps_find_diff id fullBlock height (payload.map Prod.fst) (diffOfTx db tx) [] saveToTemp]
    rfl

theorem map_eq_filterMap_some {α β : Type} (f : α → β) (l : List α) :
    l.map f = l.filterMap fun a => some (f a) := by
  induction l with
  | nil => rfl
  | cons a as ih =>
    show _ :: as.map f = _ :: as.filterMap _
    rw [ih]

theorem find?_rev_map_key {α : Type} (f : α → BatchOp) (keyOf : α → Key)
    (hf : ∀ x, (f x).key = keyOf x) (l : List α) (x : α) (k : Key)
    (hx : x ∈ l) (hkx : keyOf x = k) (hnd : (l.map keyOf).Nodup) :
    ((l.map f).reverse.find? fun op => op.key == k) = some (f x) := by
  rw [map_eq_filterMap_some]
  exact find?_rev_filterMap_key (fun a => some (f a)) keyOf
    (by intro a op ha; injection ha with ha2; rw [← ha2]; exact hf a) l x k hx hkx hnd

theorem key_of_flushOp (x : Key × Option Bytes) (op : BatchOp)
    (hx : some (match x.2 with
                | some v => BatchOp.put x.1 (DBValue.bytes v)
                | none => BatchOp.del x.1) = some op) : op.key = x.1 := by
  cases h2 : x.2 <;> rw [h2] at hx <;> injection hx with hop <;> rw [← hop] <;> rfl

/-- The flushed mutations of a state store touch only state-domain
keys. -/
theorem flush_find_none_low (tx : StateTx) (hstate : ∀ kv ∈ tx, isStateKey kv.1 = true)
    (t : Nat) (rest : List Nat) (ht : t < 10) :
    ((flushOps tx).reverse.find? fun op => op.key == (t :: rest)) = none := by
  rw [flushOps_eq_filterMap]
  apply find?_rev_filterMap_none _ Prod.fst key_of_flushOp tx (t :: rest)
  intro x hx hxk
  have hsk := hstate x hx
  rw [hxk] at hsk
  simp only [isStateKey, Bool.or_eq_true, beq_iff_eq, tagAccounts, tagChainState] at hsk
  omega

/-- After `saveBlock`, the header sits under `BLOCKS_ID` at the block
id. -/
theorem saveBlock_blocksID_key (db : Kv) (id header : Bytes) (h fh : Nat)
    (payload : List (Bytes × Bytes)) (tx : StateTx) (rft : Bool)
    (hstate : ∀ kv ∈ tx, isStateKey kv.1 = true) :
    saveBlock db id h fh header payload tx rft (concatDBKeys dbKeyBlocksID id) =
      some (.bytes header) := by
  unfold saveBlock
  rw [show concatDBKeys dbKeyBlocksID id = 3 :: id from rfl]
  rw [cleanUntil_ne_diff _ _ 3 id (by omega)]
  rw [writeBatch_key]
  unfold saveBlockOps
  rw [find?_rev_append, find?_rev_append, find?_rev_append, find?_rev_append]
  rw [find?_rev_none_of_keys _ _ (by
    intro op hop
    simp only [List.mem_cons, List.not_mem_nil, or_false] at hop
    rcases hop with h1 | h1 <;> subst h1
    · exact key_cons_ne 8 (formatInt h) 3 id (by omega)
    · exact key_cons_ne 9 [] 3 id (by omega))]
  rw [flush_find_none_low tx hstate 3 id (by omega)]
  rw [find?_rev_none_of_keys _ _ (by
    intro op hop
    split at hop
    · simp only [List.mem_cons, List.not_mem_nil, or_false] at hop
      subst hop
      exact key_cons_ne 7 (formatInt h) 3 id (by omega)
    · exact absurd hop (List.not_mem_nil op))]
  rw [find?_rev_none_of_keys _ _ (by
    intro op hop
    split at hop
    · rw [List.mem_append] at hop
      rcases hop with h1 | h1
      · rw [List.mem_map] at h1
        obtain ⟨p, _, hp⟩ := h1
        subst hp
        exact key_cons_ne 5 p.1 3 id (by omega)
      · simp only [List.mem_cons, List.not_mem_nil, or_false] at h1
        subst h1
        exact key_cons_ne 6 id 3 id (by omega)
    · exact absurd hop (List.not_mem_nil op))]
  have h1 : (([BatchOp.put (concatDBKeys dbKeyBlocksID id) (DBValue.bytes header),
      BatchOp.put (concatDBKeys dbKeyBlocksHeight (formatInt h)) (DBValue.bytes id)] :
        List BatchOp).reverse.find? fun op => op.key == (3 :: id)) =
      some (BatchOp.put (concatDBKeys dbKeyBlocksID id) (DBValue.bytes header)) := by
    rw [show ([BatchOp.put (concatDBKeys dbKeyBlocksID id) (DBValue.bytes header),
        BatchOp.put (concatDBKeys dbKeyBlocksHeight (formatInt h)) (DBValue.bytes id)] :
          List BatchOp).reverse =
      [BatchOp.put (concatDBKeys dbKeyBlocksHeight (formatInt h)) (DBValue.bytes id),
       BatchOp.put (concatDBKeys dbKeyBlocksID id) (DBValue.bytes header)] from rfl]
    rw [List.find?_cons]
    rw [show ((BatchOp.put (concatDBKeys dbKeyBlocksHeight (formatInt h)) (DBValue.bytes id)).key ==
        (3 :: id)) = false from by
      rw [beq_eq_false_iff_ne]
      exact key_cons_ne 4 (formatInt h) 3 id (by omega)]
    rw [List.find?_cons]
    rw [show ((BatchOp.put (concatDBKeys dbKeyBlocksID id) (DBValue.bytes header)).key ==
        (3 :: id)) = true from by rw [beq_iff_eq]; rfl]
  rw [h1]
  rfl

/-- After `saveBlock`, the height index maps the height to the block
id. -/
theorem saveBlock_blocksHeight_key (db : Kv) (id header : Bytes) (h fh : Nat)
    (payload : List (Bytes × Bytes)) (tx : StateTx) (rft : Bool)
    (hstate : ∀ kv ∈ tx, isStateKey kv.1 = true) :
    saveBlock db id h fh header payload tx rft
        (concatDBKeys dbKeyBlocksHeight (formatInt h)) = some (.bytes id) := by
  unfold saveBlock
  rw [show concatDBKeys dbKeyBlocksHeight (formatInt h) = 4 :: formatInt h from rfl]
  rw [cleanUntil_ne_diff _ _ 4 (formatInt h) (by omega)]
  rw [writeBatch_key]
  unfold saveBlockOps
  rw [find?_rev_append, find?_rev_append, find?_rev_append, find?_rev_append]
  rw [find?_rev_none_of_keys _ _ (by
    intro op hop
    simp only [List.mem_cons, List.not_mem_nil, or_false] at hop
    rcases hop with h1 | h1 <;> subst h1
    · exact key_cons_ne 8 (formatInt h) 4 (formatInt h) (by omega)
    · exact key_cons_ne 9 [] 4 (formatInt h) (by omega))]
  rw [flush_find_none_low tx hstate 4 (formatInt h) (by omega)]
  rw [find?_rev_none_of_keys _ _ (by
    intro op hop
    split at hop
    · simp only [List.mem_cons, List.not_mem_nil, or_false] at hop
      subst hop
      exact key_cons_ne 7 (formatInt h) 4 (formatInt h) (by omega)
    · exact absurd hop (List.not_mem_nil op))]
  rw [find?_rev_none_of_keys _ _ (by
    intro op hop
    split at hop
    · rw [List.mem_append] at hop
      rcases hop with h1 | h1
      · rw [List.mem_map] at h1
        obtain ⟨p, _, hp⟩ := h1
        subst hp
        exact key_cons_ne 5 p.1 4 (formatInt h) (by omega)
      · simp only [List.mem_cons, List.not_mem_nil, or_false] at h1
        subst h1
        exact key_cons_ne 6 id 4 (formatInt h) (by omega)
    · exact absurd hop (List.not_mem_nil op))]
  have h1 : (([BatchOp.put (concatDBKeys dbKeyBlocksID id) (DBValue.bytes header),
      BatchOp.put (concatDBKeys dbKeyBlocksHeight (formatInt h)) (DBValue.bytes id)] :
        List BatchOp).reverse.find?
          fun op => op.key == (4 :: formatInt h)) =
      some (BatchOp.put (concatDBKeys dbKeyBlocksHeight (formatInt h)) (DBValue.bytes id)) := by
    rw [show ([BatchOp.put (concatDBKeys dbKeyBlocksID id) (DBValue.bytes header),
        BatchOp.put (concatDBKeys dbKeyBlocksHeight (formatInt h)) (DBValue.bytes id)] :
          List BatchOp).reverse =
      [BatchOp.put (concatDBKeys dbKeyBlocksHeight (formatInt h)) (DBValue.bytes id),
       BatchOp.put (concatDBKeys dbKeyBlocksID id) (DBValue.bytes header)] from rfl]
    rw [List.find?_cons]
    rw [show ((BatchOp.put (concatDBKeys dbKeyBlocksHeight (formatInt h)) (DBValue.bytes id)).key ==
        (4 :: formatInt h)) = true from by rw [beq_iff_eq]; rfl]
  rw [h1]
  rfl

/-- After `saveBlock`, each payload transaction sits under `TX_ID` at
its id. -/
theorem saveBlock_txID_key (db : Kv) (id header : Bytes) (h fh : Nat)
    (payload : List (Bytes × Bytes)) (tx : StateTx) (rft : Bool)
    (p : Bytes × Bytes) (hp : p ∈ payload)
    (hnd : (payload.map Prod.fst).Nodup)
    (hstate : ∀ kv ∈ tx, isStateKey kv.1 = true) :
    saveBlock db id h fh header payload tx rft (concatDBKeys dbKeyTransactionsID p.1) =
      some (.bytes p.2) := by
  have hnd5 : (payload.map fun q => (5 : Nat) :: q.1).Nodup := by
    rw [show (payload.map fun q => (5 : Nat) :: q.1) =
        (payload.map Prod.fst).map (fun t => 5 :: t) from (List.map_map _ _ _).symm]
    exact List.Nodup.map (fun a b hab => by injection hab) hnd
  unfold saveBlock
  rw [show concatDBKeys dbKeyTransactionsID p.1 = 5 :: p.1 from rfl]
  rw [cleanUntil_ne_diff _ _ 5 p.1 (by omega)]
  rw [writeBatch_key]
  unfold saveBlockOps
  rw [find?_rev_append, find?_rev_append, find?_rev_append, find?_rev_append]
  rw [find?_rev_none_of_keys _ _ (by
    intro op hop
    simp only [List.mem_cons, List.not_mem_nil, or_false] at hop
    rcases hop with h1 | h1 <;> subst h1
    · exact key_cons_ne 8 (formatInt h) 5 p.1 (by omega)
    · exact key_cons_ne 9 [] 5 p.1 (by omega))]
  rw [flush_find_none_low tx hstate 5 p.1 (by omega)]
  rw [find?_rev_none_of_keys _ _ (by
    intro op hop
    split at hop
    · simp only [List.mem_cons, List.not_mem_nil, or_false] at hop
      subst hop
      exact key_cons_ne 7 (formatInt h) 5 p.1 (by omega)
    · exact absurd hop (List.not_mem_nil op))]
  have hlen0 : payload.length > 0 :=
    List.length_pos.mpr (by rintro rfl; exact absurd hp (List.not_mem_nil p))
  rw [if_pos hlen0]
  rw [find?_rev_append]
  rw [find?_rev_none_of_keys _ _ (by
    intro op hop
    simp only [List.mem_cons, List.not_mem_nil, or_false] at hop
    subst hop
    exact key_cons_ne 6 id 5 p.1 (by omega))]
  rw [show (fun q => BatchOp.put (concatDBKeys dbKeyTransactionsID q.1) (DBValue.bytes q.2)) =
      (fun q : Bytes × Bytes => BatchOp.put (5 :: q.1) (DBValue.bytes q.2)) from rfl]
  rw [find?_rev_map_key (fun q : Bytes × Bytes => BatchOp.put (5 :: q.1) (DBValue.bytes q.2))
    (fun q => 5 :: q.1) (fun q => rfl) payload p (5 :: p.1) hp rfl hnd5]
  rfl

/-- After `saveBlock` of a block with payload, the id concatenation of
the payload sits under `TX_BLOCK_ID` at the block id. -/
theorem saveBlock_txBlockID_key (db : Kv) (id header : Bytes) (h fh : Nat)
    (payload : List (Bytes × Bytes)) (tx : StateTx) (rft : Bool)
    (hplen : payload.length > 0)
    (hstate : ∀ kv ∈ tx, isStateKey kv.1 = true) :
    saveBlock db id h fh header payload tx rft
        (concatDBKeys dbKeyTransactionsBlockID id) =
      some (.bytes (payload.map Prod.fst).flatten) := by
  unfold saveBlock
  rw [show concatDBKeys dbKeyTransactionsBlockID id = 6 :: id from rfl]
  rw [cleanUntil_ne_diff _ _ 6 id (by omega)]
  rw [writeBatch_key]
  unfold saveBlockOps
  rw [find?_rev_append, find?_rev_append, find?_rev_append, find?_rev_append]
  rw [find?_rev_none_of_keys _ _ (by
    intro op hop
    simp only [List.mem_cons, List.not_mem_nil, or_false] at hop
    rcases hop with h1 | h1 <;> subst h1
    · exact key_cons_ne 8 (formatInt h) 6 id (by omega)
    · exact key_cons_ne 9 [] 6 id (by omega))]
  rw [flush_find_none_low tx hstate 6 id (by omega)]
  rw [find?_rev_none_of_keys _ _ (by
    intro op hop
    split at hop
    · simp only [List.mem_cons, List.not_mem_nil, or_false] at hop
      subst hop
      exact key_cons_ne 7 (formatInt h) 6 id (by omega)
    · exact absurd hop (List.not_mem_nil op))]
  rw [if_pos hplen]
  rw [find?_rev_append]
  have hbt : (([BatchOp.put (concatDBKeys dbKeyTransactionsBlockID id)
      (DBValue.bytes (payload.map Prod.fst).flatten)] : List BatchOp).reverse.find?
        fun op => op.key == (6 :: id)) =
      some (BatchOp.put (concatDBKeys dbKeyTransactionsBlockID id)
        (DBValue.bytes (payload.map Prod.fst).flatten)) := by
    rw [show ([BatchOp.put (concatDBKeys dbKeyTransactionsBlockID id)
        (DBValue.bytes (payload.map Prod.fst).flatten)] : List BatchOp).reverse =
      [BatchOp.put (concatDBKeys dbKeyTransactionsBlockID id)
        (DBValue.bytes (payload.map Prod.fst).flatten)] from rfl]
    rw [List.find?_cons]
    rw [show ((BatchOp.put (concatDBKeys dbKeyTransactionsBlockID id)
        (DBValue.bytes (payload.map Prod.fst).flatten)).key == (6 :: id)) = true from by
      rw [beq_iff_eq]; rfl]
  rw [hbt]
  rfl

/-- `saveBlock` of a block without payload leaves `TX_BLOCK_ID`
untouched. -/
theorem saveBlock_txBlockID_empty (db : Kv) (id header : Bytes) (h fh : Nat)
    (tx : StateTx) (rft : Bool)
    (hstate : ∀ kv ∈ tx, isStateKey kv.1 = true) :
    saveBlock db id h fh header [] tx rft
        (concatDBKeys dbKeyTransactionsBlockID id) =
      db (concatDBKeys dbKeyTransactionsBlockID id) := by
  unfold saveBlock
  rw [show concatDBKeys dbKeyTransactionsBlockID id = 6 :: id from rfl]
  rw [cleanUntil_ne_diff _ _ 6 id (by omega)]
  rw [writeBatch_key]
  unfold saveBlockOps
  rw [find?_rev_append, find?_rev_append, find?_rev_append, find?_rev_append]
  rw [find?_rev_none_of_keys _ _ (by
    intro op hop
    simp only [List.mem_cons, List.not_mem_nil, or_false] at hop
    rcases hop with h1 | h1 <;> subst h1
    · exact key_cons_ne 8 (formatInt h) 6 id (by omega)
    · exact key_cons_ne 9 [] 6 id (by omega))]
  rw [flush_find_none_low tx hstate 6 id (by omega)]
  rw [find?_rev_none_of_keys _ _ (by
    intro op hop
    split at hop
    · simp only [List.mem_cons, List.not_mem_nil, or_false] at hop
      subst hop
      exact key_cons_ne 7 (formatInt h) 6 id (by omega)
    · exact absurd hop (List.not_mem_nil op))]
  rw [show ((if ([] : List (Bytes × Bytes)).length > 0 then
      (([] : List (Bytes × Bytes)).map fun p =>
        BatchOp.put (concatDBKeys dbKeyTransactionsID p.1) (DBValue.bytes p.2))
      ++ [BatchOp.put (concatDBKeys dbKeyTransactionsBlockID id)
            (DBValue.bytes (([] : List (Bytes × Bytes)).map Prod.fst).flatten)]
    else []) : List BatchOp) = [] from rfl]
  rw [show ((([] : List BatchOp)).reverse.find? fun op => op.key == (6 :: id)) = none from rfl]
  rw [find?_rev_none_of_keys _ _ (by
    intro op hop
    simp only [List.mem_cons, List.not_mem_nil, or_false] at hop
    rcases hop with h1 | h1 <;> subst h1
    · exact key_cons_ne 3 id 6 id (by omega)
    · exact key_cons_ne 4 (formatInt h) 6 id (by omega))]
  rfl

theorem chunks32_append (a f : Bytes) (ha : a.length = 32) :
    chunks32 (a ++ f) = a :: chunks32 f := by
  cases a with
  | nil => simp at ha
  | cons b bs =>
    rw [List.cons_append, chunks32]
    rw [show (b :: (bs ++ f)) = (b :: bs) ++ f from rfl]
    rw [List.take_append_of_le_length (by rw [ha]), List.drop_append_of_le_length (by rw [ha])]
    rw [← ha, List.take_length, List.drop_length, List.nil_append]

theorem chunks32_flatten (l : List Bytes) (hl : ∀ x ∈ l, x.length = 32) :
    chunks32 l.flatten = l := by
  induction l with
  | nil => rw [List.flatten_nil, chunks32]
  | cons a as ih =>
    rw [List.flatten_cons, chunks32_append a as.flatten (hl a (List.mem_cons_self a as))]
    rw [ih fun x hx => hl x (List.mem_cons_of_mem a hx)]

theorem getTransactionsM_go_payload (db1 : Kv) (payload : List (Bytes × Bytes))
    (hv : ∀ p ∈ payload, db1 (concatDBKeys dbKeyTransactionsID p.1) = some (.bytes p.2)) :
    getTransactionsM.go db1 (payload.map Prod.fst) = some (payload.map Prod.snd) := by
  induction payload with
  | nil => rfl
  | cons p ps ih =>
    rw [List.map_cons, getTransactionsM.go]
    rw [hv p (List.mem_cons_self p ps)]
    rw [ih fun q hq => hv q (List.mem_cons_of_mem p hq)]
    rfl

/-- C4: a block saved through `Storage.saveBlock` whose id is the hash
of its stored header is returned intact by `getBlockByHeight` at its
height, and by `getBlockByID` at its id — same header, same payload. -/
theorem saved_block_retrievable (db : Kv) (hashFn : Bytes → Bytes) (id header : Bytes)
    (h fh : Nat) (payload : List (Bytes × Bytes)) (tx : StateTx) (rft : Bool)
    (hstate : ∀ kv ∈ tx, isStateKey kv.1 = true)
    (hid : id = hashFn header)
    (hnd : (payload.map Prod.fst).Nodup)
    (hlen : ∀ p ∈ payload, p.1.length = 32)
    (hempty : payload = [] → db (concatDBKeys dbKeyTransactionsBlockID id) = none) :
    getBlockByHeightM hashFn (saveBlock db id h fh header payload tx rft) h =
      some (header, payload.map Prod.snd) ∧
    getBlockByIDM (saveBlock db id h fh header payload tx rft) id =
      some (header, payload.map Prod.snd) := by
  have hH := saveBlock_blocksHeight_key db id header h fh payload tx rft hstate
  have hI := saveBlock_blocksID_key db id header h fh payload tx rft hstate
  have hT : getTransactionsM (saveBlock db id h fh header payload tx rft) id =
      some (payload.map Prod.snd) := by
    unfold getTransactionsM
    cases hpl : payload with
    | nil =>
      rw [saveBlock_txBlockID_empty db id header h fh tx rft hstate]
      rw [hempty hpl]
      rfl
    | cons q qs =>
      rw [← hpl]
      have hplen : payload.length > 0 := by rw [hpl]; simp
      rw [saveBlock_txBlockID_key db id header h fh payload tx rft hplen hstate]
      rw [show (match (some (DBValue.bytes (payload.map Prod.fst).flatten) : Option DBValue) with
          | some (.bytes ids) => chunks32 ids
          | _ => []) = chunks32 (payload.map Prod.fst).flatten from rfl]
      rw [chunks32_flatten (payload.map Prod.fst) (by
        intro x hx
        rw [List.mem_map] at hx
        obtain ⟨p, hpmem, hpx⟩ := hx
        rw [← hpx]
        exact hlen p hpmem)]
      exact getTransactionsM_go_payload _ payload fun p hp =>
        saveBlock_txID_key db id header h fh payload tx rft p hp hnd hstate
  constructor
  · simp only [getBlockByHeightM, hH]
    simp only [show asBytesOpt (some (DBValue.bytes id)) = some id from rfl]
    simp only [getBlockHeaderByIDM, hI]
    simp only [show asBytesOpt (some (DBValue.bytes header)) = some header from rfl]
    rw [← hid]
    simp only [hT]
  · simp only [getBlockByIDM, getBlockHeaderByIDM, hI]
    simp only [show asBytesOpt (some (DBValue.bytes header)) = some header from rfl]
    simp only [hT]

/-- C2: block deletion through the processor fails (leaving the store
untouched) whenever the block's height is at or below the finalized
height, and proceeds to the storage deletion exactly when the height is
strictly greater. -/
theorem procDeleteBlock_finalized_guard (finalizedHeight : Nat) (db : Kv) (id : Bytes)
    (height : Nat) (txIDs : List Bytes) (fullBlock : Bytes) (saveTempBlock : Bool) :
    (height ≤ finalizedHeight →
      procDeleteBlock finalizedHeight db id height txIDs fullBlock saveTempBlock =
        (db, .error "Can not delete block below or same as finalized height")) ∧
    (∀ db2 d, finalizedHeight < height →
      deleteBlock db id height txIDs fullBlock [] saveTempBlock = some (db2, d) →
      procDeleteBlock finalizedHeight db id height txIDs fullBlock saveTempBlock =
        (db2, .ok d)) := by
  constructor
  · intro hle
    rw [procDeleteBlock, if_pos hle]
  · intro db2 d hlt hdel
    rw [procDeleteBlock, if_neg (Nat.not_le.mpr hlt), hdel]

/-- C3: on a TIE_BREAK where the incoming block passes static
validation but fails application while the preserved previous tip
re-applies cleanly, the previous tip is restored as the chain tip, the
job completes without error, and no `BROADCAST_BLOCK` event is emitted
for the restored block. -/
theorem tieBreak_failure_restores_tip (validOk verifyOk applyOk : PBlock → Bool)
    (finalizedHeight : Nat) (tip b : PBlock)
    (hvalid : validateBlock validOk b = true)
    (hheight : finalizedHeight < tip.height)
    (hfail : verifyOk b = false ∨ applyOk b = false)
    (hver : verifyOk tip = true) (happ : applyOk tip = true)
    (hid : tip.id ≠ b.id) :
    (processStep validOk verifyOk applyOk finalizedHeight .tieBreak tip b).tip = some tip ∧
    (processStep validOk verifyOk applyOk finalizedHeight .tieBreak tip b).errored = false ∧
    PEvent.broadcastBlock tip.id ∉
      (processStep validOk verifyOk applyOk finalizedHeight .tieBreak tip b).events := by
  have hnotle : ¬ tip.height ≤ finalizedHeight := Nat.not_le.mpr hheight
  rcases hfail with hf | hf
  · simp [processStep, hvalid, hnotle, pvStep, hf, hver, happ, hid]
  · by_cases hv : verifyOk b = true
    · simp [processStep, hvalid, hnotle, pvStep, hv, hf, hver, happ, hid]
    · simp [processStep, hvalid, hnotle, pvStep, Bool.eq_false_iff.mpr hv, hver, happ, hid]

/-- C5: `Processor.init` is idempotent — when the genesis block already
exists nothing is validated, applied or saved; otherwise a valid
genesis is validated, applied through the hooks and saved with
finalized height 0, after which a second `init` with the same genesis
is a no-op. -/
theorem procInit_idempotent (db : Kv) (gb : GenesisModel) (gtx : StateTx)
    (hstate : ∀ kv ∈ gtx, isStateKey kv.1 = true) :
    (genesisBlockExist db gb = true → procInit db gb gtx = .ok (db, [])) ∧
    (genesisBlockExist db gb = false → gb.valid = true →
      procInit db gb gtx = .ok (saveBlock db gb.id gb.height 0 gb.header [] gtx false,
        [.validatedGenesis, .appliedGenesisAndHooks, .savedGenesis])) ∧
    (∀ db1 acts, procInit db gb gtx = .ok (db1, acts) →
      procInit db1 gb gtx = .ok (db1, [])) := by
  refine ⟨?_, ?_, ?_⟩
  · intro hex
    simp [procInit, hex]
  · intro hex hval
    simp [procInit, hex, hval]
  · intro db1 acts hfirst
    by_cases hex : genesisBlockExist db gb = true
    · simp only [procInit, hex, if_true, Except.ok.injEq, Prod.mk.injEq] at hfirst
      rw [procInit, if_pos (by rw [← hfirst.1]; exact hex)]
    · by_cases hval : gb.valid = true
      · simp only [procInit, hex, if_false, hval, if_true, Except.ok.injEq, Prod.mk.injEq,
          Bool.false_eq_true] at hfirst
        have hex2 : genesisBlockExist db1 gb = true := by
          rw [← hfirst.1, genesisBlockExist,
            saveBlock_blocksID_key db gb.id gb.header gb.height 0 [] gtx false hstate]
          rfl
        rw [procInit, if_pos hex2]
      · simp [procInit, hex, hval] at hfirst

/-- C6: once `Processor.stop` has set the shutdown flag, the mutating
entry points `process`, `processValidated` and `deleteLastBlock` return
immediately without queueing a job or changing the node state. -/
theorem stop_flag_noop (validOk verifyOk applyOk : PBlock → Bool) (finalizedHeight : Nat)
    (forkStatus : ForkStatus) (s : NodeState) (b : PBlock) (hstop : s.stopFlag = true) :
    processCall validOk verifyOk applyOk finalizedHeight forkStatus s b = s ∧
    processValidatedCall verifyOk applyOk s b = s ∧
    deleteLastBlockCall finalizedHeight s = s := by
  simp [processCall, processValidatedCall, deleteLastBlockCall, hstop]

theorem invokeReducer_eq_of_split (modules : List ModuleModel) (nm : String) (params : Nat)
    (mn fn : String) (hsp : nm.splitOn ":" = [mn, fn]) :
    invokeReducer modules nm params =
      match modules.find? (fun mo => mo.name == mn) with
      | none => Except.error ("Module " ++ mn ++ " does not exist")
      | some m =>
        match m.reducers.find? (fun rd => rd.1 == fn) with
        | none => Except.error (fn ++ " does not exist in module " ++ mn)
        | some r => Except.ok (r.2 params) := by
  unfold invokeReducer
  rw [hsp]

/-- C7: `ReducerHandler.invoke` succeeds exactly when the name splits
on `:` into a registered module name and an existing reducer of that
module, in which case that reducer is applied to the params; in every
other case it fails without calling any reducer. -/
theorem invokeReducer_ok_iff (modules : List ModuleModel) (nm : String) (params : Nat) :
    (∃ v, invokeReducer modules nm params = Except.ok v) ↔
      ∃ mn fn m r, nm.splitOn ":" = [mn, fn] ∧
        modules.find? (fun mo => mo.name == mn) = some m ∧
        m.reducers.find? (fun rd => rd.1 == fn) = some r ∧
        invokeReducer modules nm params = Except.ok (r.2 params) := by
  constructor
  · rintro ⟨v, hv⟩
    rw [invokeReducer] at hv
    rcases hsp : nm.splitOn ":" with _ | ⟨mn, _ | ⟨fn, _ | ⟨x, xs⟩⟩⟩ <;> rw [hsp] at hv
    · exact absurd hv (by simp)
    · exact absurd hv (by simp)
    · rw [← hsp] at hv
      rw [show (match nm.splitOn ":" with
          | [moduleName, funcName] =>
            match modules.find? (fun m => m.name == moduleName) with
            | none => Except.error ("Module " ++ moduleName ++ " does not exist")
            | some m =>
              match m.reducers.find? (fun r => r.1 == funcName) with
              | none => Except.error (funcName ++ " does not exist in module " ++ moduleName)
              | some r => Except.ok (r.2 params)
          | _ => Except.error "Invalid format to call reducer") =
        invokeReducer modules nm params from rfl] at hv
      rw [invokeReducer_eq_of_split modules nm params mn fn hsp] at hv
      cases hm : modules.find? (fun mo => mo.name == mn) with
      | none => simp only [hm] at hv; exact absurd hv (by simp)
      | some m =>
        simp only [hm] at hv
        cases hr : m.reducers.find? (fun rd => rd.1 == fn) with
        | none => simp only [hr] at hv; exact absurd hv (by simp)
        | some r =>
          refine ⟨mn, fn, m, r, rfl, hm, hr, ?_⟩
          rw [invokeReducer_eq_of_split modules nm params mn fn hsp]
          simp only [hm, hr]
    · exact absurd hv (by simp)
  · rintro ⟨mn, fn, m, r, hsp, hm, hr, hval⟩
    exact ⟨r.2 params, hval⟩

/-- C8: a `handleRPCGetTransactions` call finding three or more prior
calls of the peer inside the sliding window applies penalty 10 to the
peer; with fewer prior calls in the window no penalty is applied. -/
theorem rate_limit_penalty (calls : List Nat) (peerId : String) (now : Nat) :
    (DEFAULT_RATE_LIMIT_FREQUENCY ≤ recentCount calls now →
      handleRPCGetTransactionsRate calls peerId now = (now :: calls, [⟨peerId, 10⟩])) ∧
    (recentCount calls now < DEFAULT_RATE_LIMIT_FREQUENCY →
      handleRPCGetTransactionsRate calls peerId now = (now :: calls, [])) := by
  have hcount : recentCount (now :: calls) now = recentCount calls now + 1 := by
    rw [recentCount, recentCount, List.filter_cons]
    rw [show (decide (now < now + RATE_WINDOW_MS)) = true from by
      rw [decide_eq_true_eq, RATE_WINDOW_MS]; omega]
    rw [if_pos rfl, List.length_cons]
  constructor
  · intro hc
    rw [handleRPCGetTransactionsRate]
    simp only [hcount]
    rw [if_pos (by rw [DEFAULT_RATE_LIMIT_FREQUENCY] at hc ⊢; omega)]
  · intro hc
    rw [handleRPCGetTransactionsRate]
    simp only [hcount]
    rw [if_neg (by rw [DEFAULT_RATE_LIMIT_FREQUENCY] at hc ⊢; omega)]

theorem registerEvents_error_of_mem (moduleAlias : String) (evs : List String) :
    ∀ st : BusState, (∃ e ∈ evs, (moduleAlias ++ ":" ++ e) ∈ st.events) →
    ∃ msg, registerEvents moduleAlias st evs = .error msg := by
  induction evs with
  | nil =>
    rintro st ⟨e, he, _⟩
    exact absurd he (List.not_mem_nil e)
  | cons e rest ih =>
    rintro st ⟨x, hx, hxin⟩
    by_cases hdup : (moduleAlias ++ ":" ++ e) ∈ st.events
    · exact ⟨_, by rw [registerEvents, if_pos hdup]⟩
    · rw [registerEvents, if_neg hdup]
      rcases List.mem_cons.mp hx with hxe | hxrest
      · subst hxe
        exact absurd hxin hdup
      · exact ih _ ⟨x, hxrest, List.mem_append_left _ hxin⟩

theorem registerEvents_ok_actions (moduleAlias : String) (evs : List String) :
    ∀ st st2 : BusState, registerEvents moduleAlias st evs = .ok st2 →
    st2.actions = st.actions := by
  induction evs with
  | nil =>
    intro st st2 hok
    rw [registerEvents] at hok
    injection hok with h
    rw [← h]
  | cons e rest ih =>
    intro st st2 hok
    rw [registerEvents] at hok
    split at hok
    · exact absurd hok (by simp)
    · rw [ih _ _ hok]

theorem registerEvents_ok_nodup (moduleAlias : String) (evs : List String) :
    ∀ st st2 : BusState, registerEvents moduleAlias st evs = .ok st2 →
    st.events.Nodup → st2.events.Nodup := by
  induction evs with
  | nil =>
    intro st st2 hok hnd
    rw [registerEvents] at hok
    injection hok with h
    rw [← h]
    exact hnd
  | cons e rest ih =>
    intro st st2 hok hnd
    rw [registerEvents] at hok
    split at hok
    · exact absurd hok (by simp)
    · rename_i hne
      refine ih _ _ hok ?_
      exact List.Nodup.append hnd (List.nodup_singleton _) (fun x hx hmem => by
        simp only [List.mem_singleton] at hmem
        subst hmem
        exact hne hx)

theorem registerActions_error_of_mem (moduleAlias : String) (acts : List String) :
    ∀ st : BusState, (∃ a ∈ acts, (moduleAlias ++ ":" ++ a) ∈ st.actions) →
    ∃ msg, registerActions moduleAlias st acts = .error msg := by
  induction acts with
  | nil =>
    rintro st ⟨a, ha, _⟩
    exact absurd ha (List.not_mem_nil a)
  | cons a rest ih =>
    rintro st ⟨x, hx, hxin⟩
    by_cases hdup : (moduleAlias ++ ":" ++ a) ∈ st.actions
    · exact ⟨_, by rw [registerActions, if_pos hdup]⟩
    · rw [registerActions, if_neg hdup]
      rcases List.mem_cons.mp hx with hxe | hxrest
      · subst hxe
        exact absurd hxin hdup
      · exact ih _ ⟨x, hxrest, List.mem_append_left _ hxin⟩

theorem registerActions_ok_nodup (moduleAlias : String) (acts : List String) :
    ∀ st st2 : BusState, registerActions moduleAlias st acts = .ok st2 →
    st.actions.Nodup → st2.actions.Nodup := by
  induction acts with
  | nil =>
    intro st st2 hok hnd
    rw [registerActions] at hok
    injection hok with h
    rw [← h]
    exact hnd
  | cons a rest ih =>
    intro st st2 hok hnd
    rw [registerActions] at hok
    split at hok
    · exact absurd hok (by simp)
    · rename_i hne
      refine ih _ _ hok ?_
      exact List.Nodup.append hnd (List.nodup_singleton _) (fun x hx hmem => by
        simp only [List.mem_singleton] at hmem
        subst hmem
        exact hne hx)

theorem registerActions_ok_events (moduleAlias : String) (acts : List String) :
    ∀ st st2 : BusState, registerActions moduleAlias st acts = .ok st2 →
    st2.events = st.events := by
  induction acts with
  | nil =>
    intro st st2 hok
    rw [registerActions] at hok
    injection hok with h
    rw [← h]
  | cons a rest ih =>
    intro st st2 hok
    rw [registerActions] at hok
    split at hok
    · exact absurd hok (by simp)
    · rw [ih _ _ hok]

/-- C9: `Bus.registerChannel` throws whenever any namespaced event or
action name is already registered, and after every successful
registration the registered event names and action names each remain
pairwise distinct. -/
theorem registerChannel_rejects_duplicates (st : BusState) (moduleAlias : String)
    (evs acts : List String) :
    ((∃ e ∈ evs, (moduleAlias ++ ":" ++ e) ∈ st.events) ∨
       (∃ a ∈ acts, (moduleAlias ++ ":" ++ a) ∈ st.actions) →
      ∃ msg, registerChannel st moduleAlias evs acts = .error msg) ∧
    (∀ st2, registerChannel st moduleAlias evs acts = .ok st2 →
      st.events.Nodup → st.actions.Nodup → st2.events.Nodup ∧ st2.actions.Nodup) := by
  constructor
  · intro hdup
    rcases hdup with hde | hda
    · obtain ⟨msg, hmsg⟩ := registerEvents_error_of_mem moduleAlias evs st hde
      exact ⟨msg, by rw [registerChannel, hmsg]⟩
    · cases hev : registerEvents moduleAlias st evs with
      | error msg => exact ⟨msg, by rw [registerChannel, hev]⟩
      | ok stMid =>
        have hact : stMid.actions = st.actions := registerEvents_ok_actions moduleAlias evs st stMid hev
        obtain ⟨msg, hmsg⟩ :=
          registerActions_error_of_mem moduleAlias acts stMid (by rw [hact]; exact hda)
        exact ⟨msg, by rw [registerChannel]; simp only [hev]; exact hmsg⟩
  · intro st2 hok hnde hnda
    rw [registerChannel] at hok
    cases hev : registerEvents moduleAlias st evs with
    | error msg => simp only [hev] at hok; exact absurd hok (by simp)
    | ok stMid =>
      simp only [hev] at hok
      constructor
      · rw [registerActions_ok_events moduleAlias acts stMid st2 hok]
        exact registerEvents_ok_nodup moduleAlias evs st stMid hev hnde
      · refine registerActions_ok_nodup moduleAlias acts stMid st2 hok ?_
        rw [registerEvents_ok_actions moduleAlias evs st stMid hev]
        exact hnda

theorem getBlockHeadersByIDsE_ok (db : KvE) (ids : List Bytes)
    (hno : ∀ i ∈ ids, db (concatDBKeys dbKeyBlocksID i) ≠ .ioFailure) :
    getBlockHeadersByIDsE db ids = .ok (ids.filterMap fun i =>
      match db (concatDBKeys dbKeyBlocksID i) with
      | .found v => some v
      | _ => none) := by
  induction ids with
  | nil => rfl
  | cons i rest ih =>
    cases hdb : db (concatDBKeys dbKeyBlocksID i) with
    | found v =>
      simp only [getBlockHeadersByIDsE, kvGetE, hdb, List.filterMap_cons]
      rw [ih fun j hj => hno j (List.mem_cons_of_mem i hj)]
      rfl
    | missing =>
      simp only [getBlockHeadersByIDsE, kvGetE, hdb, List.filterMap_cons]
      exact ih fun j hj => hno j (List.mem_cons_of_mem i hj)
    | ioFailure => exact absurd hdb (hno i (List.mem_cons_self i rest))

theorem getBlockHeadersByIDsE_err (db : KvE) (ids : List Bytes)
    (hbad : ∃ i ∈ ids, db (concatDBKeys dbKeyBlocksID i) = .ioFailure) :
    getBlockHeadersByIDsE db ids = .error .ioError := by
  induction ids with
  | nil =>
    obtain ⟨i, hi, _⟩ := hbad
    exact absurd hi (List.not_mem_nil i)
  | cons i rest ih =>
    obtain ⟨j, hj, hjio⟩ := hbad
    cases hdb : db (concatDBKeys dbKeyBlocksID i) with
    | ioFailure => simp [getBlockHeadersByIDsE, kvGetE, hdb]
    | found v =>
      have hjrest : j ∈ rest := by
        rcases List.mem_cons.mp hj with hji | h
        · subst hji; rw [hdb] at hjio; exact absurd hjio (by simp)
        · exact h
      simp only [getBlockHeadersByIDsE, kvGetE, hdb]
      rw [ih ⟨j, hjrest, hjio⟩]
      rfl
    | missing =>
      have hjrest : j ∈ rest := by
        rcases List.mem_cons.mp hj with hji | h
        · subst hji; rw [hdb] at hjio; exact absurd hjio (by simp)
        · exact h
      simp only [getBlockHeadersByIDsE, kvGetE, hdb]
      exact ih ⟨j, hjrest, hjio⟩

theorem getBlockHeadersWithHeightsE_ok (db : KvE) (hs : List Nat)
    (hno : ∀ h ∈ hs, getBlockHeaderByHeightE db h ≠ .error .ioError) :
    getBlockHeadersWithHeightsE db hs = .ok (hs.filterMap fun h =>
      match getBlockHeaderByHeightE db h with
      | .ok v => some v
      | _ => none) := by
  induction hs with
  | nil => rfl
  | cons h rest ih =>
    cases hf : getBlockHeaderByHeightE db h with
    | ok v =>
      simp only [getBlockHeadersWithHeightsE, hf, List.filterMap_cons]
      rw [ih fun j hj => hno j (List.mem_cons_of_mem h hj)]
      rfl
    | error e =>
      cases e with
      | notFound =>
        simp only [getBlockHeadersWithHeightsE, hf, List.filterMap_cons]
        exact ih fun j hj => hno j (List.mem_cons_of_mem h hj)
      | ioError => exact absurd hf (hno h (List.mem_cons_self h rest))

theorem getBlockHeadersWithHeightsE_err (db : KvE) (hs : List Nat)
    (hbad : ∃ h ∈ hs, getBlockHeaderByHeightE db h = .error .ioError) :
    getBlockHeadersWithHeightsE db hs = .error .ioError := by
  induction hs with
  | nil =>
    obtain ⟨h, hh, _⟩ := hbad
    exact absurd hh (List.not_mem_nil h)
  | cons h rest ih =>
    obtain ⟨j, hj, hjio⟩ := hbad
    cases hf : getBlockHeaderByHeightE db h with
    | ok v =>
      have hjrest : j ∈ rest := by
        rcases List.mem_cons.mp hj with hji | hr
        · subst hji; rw [hf] at hjio; exact absurd hjio (by simp)
        · exact hr
      simp only [getBlockHeadersWithHeightsE, hf]
      rw [ih ⟨j, hjrest, hjio⟩]
      rfl
    | error e =>
      cases e with
      | notFound =>
        have hjrest : j ∈ rest := by
          rcases List.mem_cons.mp hj with hji | hr
          · subst hji; rw [hf] at hjio; exact absurd hjio (by simp)
          · exact hr
        simp only [getBlockHeadersWithHeightsE, hf]
        exact ih ⟨j, hjrest, hjio⟩
      | ioError => simp [getBlockHeadersWithHeightsE, hf]

theorem getBlocksByIDsE_ok (db : KvE) (ids : List Bytes)
    (hno : ∀ i ∈ ids, getBlockByIDE db i ≠ .error .ioError) :
    getBlocksByIDsE db ids = .ok (ids.filterMap fun i =>
      match getBlockByIDE db i with
      | .ok b => some b
      | _ => none) := by
  induction ids with
  | nil => rfl
  | cons i rest ih =>
    cases hf : getBlockByIDE db i with
    | ok b =>
      simp only [getBlocksByIDsE, hf, List.filterMap_cons]
      rw [ih fun j hj => hno j (List.mem_cons_of_mem i hj)]
      rfl
    | error e =>
      cases e with
      | notFound =>
        simp only [getBlocksByIDsE, hf, List.filterMap_cons]
        exact ih fun j hj => hno j (List.mem_cons_of_mem i hj)
      | ioError => exact absurd hf (hno i (List.mem_cons_self i rest))

theorem getBlocksByIDsE_err (db : KvE) (ids : List Bytes)
    (hbad : ∃ i ∈ ids, getBlockByIDE db i = .error .ioError) :
    getBlocksByIDsE db ids = .error .ioError := by
  induction ids with
  | nil =>
    obtain ⟨i, hi, _⟩ := hbad
    exact absurd hi (List.not_mem_nil i)
  | cons i rest ih =>
    obtain ⟨j, hj, hjio⟩ := hbad
    cases hf : getBlockByIDE db i with
    | ok b =>
      have hjrest : j ∈ rest := by
        rcases List.mem_cons.mp hj with hji | hr
        · subst hji; rw [hf] at hjio; exact absurd hjio (by simp)
        · exact hr
      simp only [getBlocksByIDsE, hf]
      rw [ih ⟨j, hjrest, hjio⟩]
      rfl
    | error e =>
      cases e with
      | notFound =>
        have hjrest : j ∈ rest := by
          rcases List.mem_cons.mp hj with hji | hr
          · subst hji; rw [hf] at hjio; exact absurd hjio (by simp)
          · exact hr
        simp only [getBlocksByIDsE, hf]
        exact ih ⟨j, hjrest, hjio⟩
      | ioError => simp [getBlocksByIDsE, hf]

theorem getTransactionsByIDsE_ok (db : KvE) (ids : List Bytes)
    (hno : ∀ i ∈ ids, db (concatDBKeys dbKeyTransactionsID i) ≠ .ioFailure) :
    getTransactionsByIDsE db ids = .ok (ids.filterMap fun i =>
      match db (concatDBKeys dbKeyTransactionsID i) with
      | .found v => some v
      | _ => none) := by
  induction ids with
  | nil => rfl
  | cons i rest ih =>
    cases hdb : db (concatDBKeys dbKeyTransactionsID i) with
    | found v =>
      simp only [getTransactionsByIDsE, kvGetE, hdb, List.filterMap_cons]
      rw [ih fun j hj => hno j (List.mem_cons_of_mem i hj)]
      rfl
    | missing =>
      simp only [getTransactionsByIDsE, kvGetE, hdb, List.filterMap_cons]
      exact ih fun j hj => hno j (List.mem_cons_of_mem i hj)
    | ioFailure => exact absurd hdb (hno i (List.mem_cons_self i rest))

theorem getTransactionsByIDsE_err (db : KvE) (ids : List Bytes)
    (hbad : ∃ i ∈ ids, db (concatDBKeys dbKeyTransactionsID i) = .ioFailure) :
    getTransactionsByIDsE db ids = .error .ioError := by
  induction ids with
  | nil =>
    obtain ⟨i, hi, _⟩ := hbad
    exact absurd hi (List.not_mem_nil i)
  | cons i rest ih =>
    obtain ⟨j, hj, hjio⟩ := hbad
    cases hdb : db (concatDBKeys dbKeyTransactionsID i) with
    | ioFailure => simp [getTransactionsByIDsE, kvGetE, hdb]
    | found v =>
      have hjrest : j ∈ rest := by
        rcases List.mem_cons.mp hj with hji | hr
        · subst hji; rw [hdb] at hjio; exact absurd hjio (by simp)
        · exact hr
      simp only [getTransactionsByIDsE, kvGetE, hdb]
      rw [ih ⟨j, hjrest, hjio⟩]
      rfl
    | missing =>
      have hjrest : j ∈ rest := by
        rcases List.mem_cons.mp hj with hji | hr
        · subst hji; rw [hdb] at hjio; exact absurd hjio (by simp)
        · exact hr
      simp only [getTransactionsByIDsE, kvGetE, hdb]
      exact ih ⟨j, hjrest, hjio⟩

/-- C10: the batch getters `getBlockHeadersByIDs`,
`getBlockHeadersWithHeights`, `getBlocksByIDs` and
`getTransactionsByIDs` silently skip entries whose fetch raised
`NotFoundError`: when no other database error occurs, the result is
exactly the found entries in input order (possibly shorter than the
input); any error other than `NotFoundError` fails the whole call. -/
theorem batch_getters_skip_not_found (db : KvE) (hids tids bids : List Bytes)
    (hs : List Nat) :
    ((∀ i ∈ hids, db (concatDBKeys dbKeyBlocksID i) ≠ .ioFailure) →
      getBlockHeadersByIDsE db hids = .ok (hids.filterMap fun i =>
        match db (concatDBKeys dbKeyBlocksID i) with
        | .found v => some v
        | _ => none)) ∧
    ((∃ i ∈ hids, db (concatDBKeys dbKeyBlocksID i) = .ioFailure) →
      getBlockHeadersByIDsE db hids = .error .ioError) ∧
    ((∀ h ∈ hs, getBlockHeaderByHeightE db h ≠ .error .ioError) →
      getBlockHeadersWithHeightsE db hs = .ok (hs.filterMap fun h =>
        match getBlockHeaderByHeightE db h with
        | .ok v => some v
        | _ => none)) ∧
    ((∃ h ∈ hs, getBlockHeaderByHeightE db h = .error .ioError) →
      getBlockHeadersWithHeightsE db hs = .error .ioError) ∧
    ((∀ i ∈ bids, getBlockByIDE db i ≠ .error .ioError) →
      getBlocksByIDsE db bids = .ok (bids.filterMap fun i =>
        match getBlockByIDE db i with
        | .ok b => some b
        | _ => none)) ∧
    ((∃ i ∈ bids, getBlockByIDE db i = .error .ioError) →
      getBlocksByIDsE db bids = .error .ioError) ∧
    ((∀ i ∈ tids, db (concatDBKeys dbKeyTransactionsID i) ≠ .ioFailure) →
      getTransactionsByIDsE db tids = .ok (tids.filterMap fun i =>
        match db (concatDBKeys dbKeyTransactionsID i) with
        | .found v => some v
        | _ => none)) ∧
    ((∃ i ∈ tids, db (concatDBKeys dbKeyTransactionsID i) = .ioFailure) →
      getTransactionsByIDsE db tids = .error .ioError) :=
  ⟨getBlockHeadersByIDsE_ok db hids, getBlockHeadersByIDsE_err db hids,
   getBlockHeadersWithHeightsE_ok db hs, getBlockHeadersWithHeightsE_err db hs,
   getBlocksByIDsE_ok db bids, getBlocksByIDsE_err db bids,
   getTransactionsByIDsE_ok db tids, getTransactionsByIDsE_err db tids⟩

/-!
## Concrete instances
-/

/-- A small concrete database: one account entry and one chain-state
entry. -/
def c1dbW : Kv := fun k =>
  if k = [tagAccounts, 1] then some (.bytes [7])
  else if k = [tagChainState, 5] then some (.bytes [2])
  else none

/-- A concrete transition: an update, a creation, a deletion and a
no-op removal of an absent key. -/
def c1txW : StateTx :=
  [([tagAccounts, 1], some [9]), ([tagAccounts, 2], some [4]),
   ([tagChainState, 5], none), ([tagChainState, 6], none)]

theorem deleteBlock_inverts_saveBlock_witness :
    (∀ kv ∈ c1txW, ∀ d, c1dbW kv.1 ≠ some (DBValue.diffVal d)) ∧
    (c1txW.map Prod.fst).Nodup ∧ 3 ≤ 5 ∧ 5 < 2 ^ 32 ∧
    ∃ db2,
      deleteBlock (saveBlock c1dbW [42] 5 3 [1, 2] [] c1txW false) [42] 5
          (([] : List (Bytes × Bytes)).map Prod.fst) [0] [] true
        = some (db2, diffOfTx c1dbW c1txW) ∧
      (∀ k, isStateKey k = true → db2 k = c1dbW k) ∧
      db2 (concatDBKeys dbKeyDiffState (formatInt 5)) = none := by
  have hbv : ∀ kv ∈ c1txW, ∀ d, c1dbW kv.1 ≠ some (DBValue.diffVal d) := by
    intro kv hkv d
    simp only [c1txW, List.mem_cons, List.not_mem_nil, or_false] at hkv
    rcases hkv with h | h | h | h <;> subst h <;>
      simp [c1dbW, tagAccounts, tagChainState]
  exact ⟨hbv, by decide, by decide, by decide,
    deleteBlock_inverts_saveBlock c1dbW [42] [1, 2] [0] 5 3 [] c1txW false true hbv
      (by decide) (by decide) (by decide)⟩

/-- A database holding one stored diff at height 7. -/
def c2dbW : Kv := fun k =>
  if k = concatDBKeys dbKeyDiffState (formatInt 7) then some (.diffVal ⟨[], [], []⟩)
  else none

theorem procDeleteBlock_finalized_guard_witness :
    3 ≤ 5 ∧
    procDeleteBlock 5 c2dbW [1] 3 [] [] false =
      (c2dbW, .error "Can not delete block below or same as finalized height") ∧
    (5 : Nat) < 7 ∧
    procDeleteBlock 5 c2dbW [1] 7 [] [] false =
      (writeBatch c2dbW (deleteBlockOps [1] 7 [] [] ⟨[], [], []⟩ [] false),
        .ok ⟨[], [], []⟩) := by
  refine ⟨by decide,
    (procDeleteBlock_finalized_guard 5 c2dbW [1] 3 [] [] false).1 (by decide),
    by decide,
    (procDeleteBlock_finalized_guard 5 c2dbW [1] 7 [] [] false).2 _ _ (by decide) ?_⟩
  rw [deleteBlock]
  rw [show c2dbW (concatDBKeys dbKeyDiffState (formatInt 7)) =
      some (.diffVal ⟨[], [], []⟩) from by simp [c2dbW]]

theorem tieBreak_failure_restores_tip_witness :
    validateBlock (fun _ => true) ⟨2, 5, 2⟩ = true ∧
    (0 : Nat) < 5 ∧
    (fun bl : PBlock => bl.id == 1) ⟨2, 5, 2⟩ = false ∧
    (fun bl : PBlock => bl.id == 1) ⟨1, 5, 2⟩ = true ∧
    (1 : Nat) ≠ 2 ∧
    (processStep (fun _ => true) (fun bl => bl.id == 1) (fun _ => true) 0 .tieBreak
        ⟨1, 5, 2⟩ ⟨2, 5, 2⟩).tip = some ⟨1, 5, 2⟩ ∧
    (processStep (fun _ => true) (fun bl => bl.id == 1) (fun _ => true) 0 .tieBreak
        ⟨1, 5, 2⟩ ⟨2, 5, 2⟩).errored = false ∧
    PEvent.broadcastBlock 1 ∉
      (processStep (fun _ => true) (fun bl => bl.id == 1) (fun _ => true) 0 .tieBreak
        ⟨1, 5, 2⟩ ⟨2, 5, 2⟩).events := by
  obtain ⟨h1, h2, h3⟩ :=
    tieBreak_failure_restores_tip (fun _ => true) (fun bl => bl.id == 1) (fun _ => true)
      0 ⟨1, 5, 2⟩ ⟨2, 5, 2⟩ (by decide) (by decide) (Or.inl (by decide)) (by decide)
      (by decide) (by decide)
  exact ⟨by decide, by decide, by decide, by decide, by decide, h1, h2, h3⟩

theorem saved_block_retrievable_witness :
    (List.replicate 32 1).length = 32 ∧
    getBlockByHeightM (fun _ => [42])
        (saveBlock (fun _ => none) [42] 2 0 [9] [(List.replicate 32 1, [5])] [] false) 2 =
      some ([9], [[5]]) ∧
    getBlockByIDM
        (saveBlock (fun _ => none) [42] 2 0 [9] [(List.replicate 32 1, [5])] [] false) [42] =
      some ([9], [[5]]) := by
  obtain ⟨h1, h2⟩ :=
    saved_block_retrievable (fun _ => none) (fun _ => [42]) [42] [9] 2 0
      [(List.replicate 32 1, [5])] [] false (by simp) rfl (by decide) (by decide)
      (by intro h; simp at h)
  exact ⟨by decide, h1, h2⟩

/-- A concrete genesis model. -/
def c5gbW : GenesisModel := ⟨[3, 3], 0, [8, 8], true⟩

theorem procInit_idempotent_witness :
    genesisBlockExist (fun _ => none) c5gbW = false ∧ c5gbW.valid = true ∧
    procInit (fun _ => none) c5gbW [] =
      .ok (saveBlock (fun _ => none) c5gbW.id c5gbW.height 0 c5gbW.header [] [] false,
        [.validatedGenesis, .appliedGenesisAndHooks, .savedGenesis]) ∧
    procInit (saveBlock (fun _ => none) c5gbW.id c5gbW.height 0 c5gbW.header [] [] false)
        c5gbW [] =
      .ok (saveBlock (fun _ => none) c5gbW.id c5gbW.height 0 c5gbW.header [] [] false, []) := by
  have hstate : ∀ kv ∈ ([] : StateTx), isStateKey kv.1 = true := by simp
  have h2 := (procInit_idempotent (fun _ => none) c5gbW [] hstate).2.1 rfl rfl
  have h3 := (procInit_idempotent (fun _ => none) c5gbW [] hstate).2.2 _ _ h2
  exact ⟨rfl, rfl, h2, h3⟩

theorem stop_flag_noop_witness :
    (⟨true, some ⟨1, 1, 2⟩, [], 0⟩ : NodeState).stopFlag = true ∧
    processCall (fun _ => true) (fun _ => true) (fun _ => true) 0 .discard
        ⟨true, some ⟨1, 1, 2⟩, [], 0⟩ ⟨2, 2, 2⟩ = ⟨true, some ⟨1, 1, 2⟩, [], 0⟩ ∧
    processValidatedCall (fun _ => true) (fun _ => true)
        ⟨true, some ⟨1, 1, 2⟩, [], 0⟩ ⟨2, 2, 2⟩ = ⟨true, some ⟨1, 1, 2⟩, [], 0⟩ ∧
    deleteLastBlockCall 0 ⟨true, some ⟨1, 1, 2⟩, [], 0⟩ = ⟨true, some ⟨1, 1, 2⟩, [], 0⟩ := by
  obtain ⟨h1, h2, h3⟩ :=
    stop_flag_noop (fun _ => true) (fun _ => true) (fun _ => true) 0 .discard
      ⟨true, some ⟨1, 1, 2⟩, [], 0⟩ ⟨2, 2, 2⟩ rfl
  exact ⟨rfl, h1, h2, h3⟩

theorem rate_limit_penalty_witness :
    DEFAULT_RATE_LIMIT_FREQUENCY ≤ recentCount [200, 100, 0] 300 ∧
    handleRPCGetTransactionsRate [200, 100, 0] "P" 300 =
      ([300, 200, 100, 0], [⟨"P", 10⟩]) ∧
    recentCount [100, 0] 200 < DEFAULT_RATE_LIMIT_FREQUENCY ∧
    handleRPCGetTransactionsRate [100, 0] "P" 200 = ([200, 100, 0], []) :=
  ⟨by decide, (rate_limit_penalty [200, 100, 0] "P" 300).1 (by decide),
   by decide, (rate_limit_penalty [100, 0] "P" 200).2 (by decide)⟩

theorem registerChannel_rejects_duplicates_witness :
    (∃ msg, registerChannel ⟨["m:a"], []⟩ "m" ["a"] [] = .error msg) ∧
    (["m:a"].Nodup ∧ ["m:b"].Nodup) :=
  ⟨(registerChannel_rejects_duplicates ⟨["m:a"], []⟩ "m" ["a"] []).1
      (Or.inl ⟨"a", by decide, by decide⟩),
   (registerChannel_rejects_duplicates ⟨[], []⟩ "m" ["a"] ["b"]).2
      ⟨["m:a"], ["m:b"]⟩ rfl (by decide) (by decide)⟩

/-- A fallible database with one header, one transaction, and one key
whose fetch fails with a non-NotFound error. -/
def c10dbW : KvE := fun k =>
  if k = concatDBKeys dbKeyBlocksID [1] then .found [11]
  else if k = concatDBKeys dbKeyTransactionsID [4] then .found [44]
  else if k = concatDBKeys dbKeyBlocksID [9] then .ioFailure
  else if k = concatDBKeys dbKeyTransactionsBlockID [1] then .ioFailure
  else .missing

theorem batch_getters_skip_not_found_witness :
    (∀ i ∈ [[1], [2]], c10dbW (concatDBKeys dbKeyBlocksID i) ≠ .ioFailure) ∧
    getBlockHeadersByIDsE c10dbW [[1], [2]] =
      .ok ([[1], [2]].filterMap fun i =>
        match c10dbW (concatDBKeys dbKeyBlocksID i) with
        | .found v => some v
        | _ => none) ∧
    (∃ i ∈ [[1], [9]], c10dbW (concatDBKeys dbKeyBlocksID i) = .ioFailure) ∧
    getBlockHeadersByIDsE c10dbW [[1], [9]] = .error .ioError ∧
    (∀ i ∈ [[4], [7]], c10dbW (concatDBKeys dbKeyTransactionsID i) ≠ .ioFailure) ∧
    getTransactionsByIDsE c10dbW [[4], [7]] =
      .ok ([[4], [7]].filterMap fun i =>
        match c10dbW (concatDBKeys dbKeyTransactionsID i) with
        | .found v => some v
        | _ => none) ∧
    (∃ i ∈ [[1]], getBlockByIDE c10dbW i = .error .ioError) ∧
    getBlocksByIDsE c10dbW [[1]] = .error .ioError := by
  have hthm := batch_getters_skip_not_found c10dbW [[1], [2]] [[4], [7]] [] []
  have hthm2 := batch_getters_skip_not_found c10dbW [[1], [9]] [] [] []
  have hthm3 := batch_getters_skip_not_found c10dbW [] [] [[1]] []
  have hio : getBlockByIDE c10dbW [1] = .error .ioError := rfl
  exact ⟨by decide, hthm.1 (by decide), by decide, hthm2.2.1 (by decide),
    by decide, hthm.2.2.2.2.2.2.1 (by decide),
    ⟨[1], by decide, hio⟩,
    hthm3.2.2.2.2.2.1 ⟨[1], by decide, hio⟩⟩

end LiskSpec
